import Mathlib

/-!
# Verification of the Wordle results tracker pipeline

Shallow embedding of the parsing / storage / aggregation pipeline of the
Discord Wordle bot (`functions/src/wordle-results-tracker/`), together with
theorems settling the specification claims about it.

Modelling conventions:
* JavaScript strings are Lean `String`s; regular-expression matching is
  embedded as explicit scanning functions over `List Char` that reproduce the
  concrete patterns used by the source (which have no backtracking subtleties:
  every optional or repeated piece is followed by a character it cannot match).
* JavaScript numbers that are only ever integers are `Int`/`Nat`; quantities
  produced by division are `ℚ`.  A `number | null` field is an `Option`.
* Fallible code (code that can throw) returns `Except Unit`.
-/

namespace Wordle

/-! ## Data model (parseWordleSummary.ts) -/
/-- One parsed result: `{ id: string | null; username?: string; score: number }`.
The source documents `score` as `-1` for fail, `1-6` for success. -/
structure WordleResult where
  id : Option String
  username : Option String
  score : Int
deriving DecidableEq

/-- Embedded `ParsedWordleSummary` from the source: streak, results, solved/unsolved. -/
structure ParsedWordleSummary where
  streak : Option Nat
  results : List WordleResult
  solved : Option Nat
  unsolved : Option Nat
deriving DecidableEq

/-- Embedded `GuildMember.user` : `{ id: string; username: string }`. -/
structure GuildUser where
  id : String
  username : String
deriving DecidableEq

/-- A guild member: `{ user: {id, username}; nick?: string }`. -/
structure GuildMember where
  user : GuildUser
  nick : Option String
deriving DecidableEq

/-! ## Small character/string helpers shared by the regex embeddings -/
/-- Split a character list into its maximal leading run of ASCII digits and
the remainder (the deterministic behaviour of a greedy `\d+` whose follower
cannot be a digit). -/
def takeDigits : List Char → List Char × List Char
  | [] => ([], [])
  | c :: cs =>
    if c.isDigit then
      let p := takeDigits cs
      (c :: p.1, p.2)
    else ([], c :: cs)

/-- Decimal value of a digit run (the exact value; `parseInt`). -/
def digitsToNat (ds : List Char) : Nat :=
  ds.foldl (fun n c => n * 10 + (c.toNat - 48)) 0

/-- Characters a JavaScript non-dotall `.` refuses to match (besides `\n`,
which cannot occur inside a line after splitting on `\n`). -/
def isJsLineTerminator (c : Char) : Bool :=
  c = '\r' || c = Char.ofNat 0x2028 || c = Char.ofNat 0x2029

/-- Characters removed by JavaScript `String.prototype.trim`: the ECMAScript
WhiteSpace set (TAB, VT, FF, SP, NBSP, ZWNBSP and the Unicode space-separator
category Zs) together with the LineTerminator set (LF, CR, LS, PS). -/
def isJsTrimWs (c : Char) : Bool :=
  c = '\t' || c = '\n' || c = Char.ofNat 0x0B || c = Char.ofNat 0x0C ||
    c = '\r' || c = ' ' || c = Char.ofNat 0xA0 || c = Char.ofNat 0x1680 ||
    (Char.ofNat 0x2000 ≤ c && c ≤ Char.ofNat 0x200A) ||
    c = Char.ofNat 0x2028 || c = Char.ofNat 0x2029 || c = Char.ofNat 0x202F ||
    c = Char.ofNat 0x205F || c = Char.ofNat 0x3000 || c = Char.ofNat 0xFEFF

/-- Embedded `String.prototype.trim`, on the character level. -/
def trimChars (cs : List Char) : List Char :=
  ((cs.dropWhile isJsTrimWs).reverse.dropWhile isJsTrimWs).reverse

/-- Embedded `String.prototype.toLowerCase`, character-wise (the usernames and
nicknames concerned are ASCII). -/
def lowerStr (s : String) : String := String.mk (s.data.map Char.toLower)

/-- Embedded `content.split("\n")` (worker). -/
def splitLinesGo (acc : List Char) : List Char → List String
  | [] => [String.mk acc.reverse]
  | c :: rest =>
    if c = '\n' then String.mk acc.reverse :: splitLinesGo [] rest
    else splitLinesGo (c :: acc) rest

/-- Embedded `content.split("\n")`: always returns at least one line. -/
def splitLines (s : String) : List String := splitLinesGo [] s.data

/-! ## parseStreak: `/on a (\d+) day streak/` -/
/-- Try to match `on a (\d+) day streak` starting exactly at the head. -/
def streakAt (cs : List Char) : Option Nat :=
  if "on a ".data.isPrefixOf cs then
    let rest := cs.drop 5
    let p := takeDigits rest
    if p.1 ≠ [] ∧ " day streak".data.isPrefixOf p.2 then some (digitsToNat p.1)
    else none
  else none

/-- Leftmost match of the streak pattern anywhere in the line. -/
def findStreak : List Char → Option Nat
  | [] => none
  | c :: cs =>
    match streakAt (c :: cs) with
    | some n => some n
    | none => findStreak cs

/-- Embedded `parseStreak`: extract the streak count from the first summary line. -/
def parseStreak (line : String) : Option Nat :=
  findStreak line.data

/-! ## parseResults: `/^(?:👑 )?([X\d])\/6: (.+)$/` and the user tokens -/
/-- The crown marker U+1F451 that may prefix a result line. -/
def crownChar : Char := Char.ofNat 0x1F451

/-- Drop the optional `👑 ` prefix.  (The crown is not in `[X\d]`, so the
regex alternative of skipping a present crown prefix can never match.) -/
def stripCrown (cs : List Char) : List Char :=
  match cs with
  | c :: ' ' :: rest => if c = crownChar then rest else cs
  | _ => cs

/-- Full-line match of `^(?:👑 )?([X\d])\/6: (.+)$`, returning the score
token and the (greedy, to end-of-line) user-string capture.  `.` rejects
line terminators, so a line containing e.g. `\r` does not match. -/
def matchResultLine (cs : List Char) : Option (Char × List Char) :=
  match stripCrown cs with
  | c :: '/' :: '6' :: ':' :: ' ' :: rest =>
    if (c = 'X' ∨ c.isDigit) ∧ rest ≠ [] ∧ rest.all (fun x => !isJsLineTerminator x)
    then some (c, rest) else none
  | _ => none

/-- Score decoding: the fail marker `X` is `-1`, a digit is its value. -/
def scoreOfChar (c : Char) : Int :=
  if c = 'X' then -1 else (c.toNat : Int) - 48

/-- The lookahead `(?=@|<@)` of the user-token separator. -/
def isUserBoundary (cs : List Char) : Bool :=
  match cs with
  | '@' :: _ => true
  | '<' :: '@' :: _ => true
  | _ => false

/-- Embedded `userString.split(/ (?=@|<@)/g)`: split on a single space that is
immediately followed by `@` or `<@`; the space is consumed, the lookahead
is not. -/
def splitUserParts (acc : List Char) : List Char → List (List Char)
  | [] => [acc.reverse]
  | c :: rest =>
    if c = ' ' ∧ isUserBoundary rest then acc.reverse :: splitUserParts [] rest
    else splitUserParts (c :: acc) rest

/-- Full match of `^<@!?([0-9]+)>$` returning the captured id digits.
(`!` is not a digit, so the greedy optional `!?` is deterministic.) -/
def matchMention (cs : List Char) : Option String :=
  match cs with
  | '<' :: '@' :: rest =>
    let rest2 := match rest with
      | '!' :: r => r
      | r => r
    let p := takeDigits rest2
    if p.1 ≠ [] ∧ p.2 = ['>'] then some (String.mk p.1) else none
  | _ => none

/-- Does a member match a (lower-cased) plain-text username?  The source:
`m.user.username.toLowerCase() === lowerUsername || (m.nick && m.nick.toLowerCase() === lowerUsername)`;
an absent or empty `nick` is falsy and never matches. -/
def memberMatchesName (lowerU : String) (m : GuildMember) : Bool :=
  lowerStr m.user.username == lowerU ||
    (match m.nick with
     | some n => n != "" && lowerStr n == lowerU
     | none => false)

/-- Resolve a plain-text `@username` against the roster: case-insensitive
filter over username/nick; zero matches give `none`; one or several matches
give the first match in roster order.  The empty-roster guard mirrors
`guildMembers && guildMembers.length > 0`. -/
def resolveUsername (username : String) (members : List GuildMember) : Option String :=
  if members.length > 0 then
    match members.filter (memberMatchesName (lowerStr username)) with
    | [] => none
    | m :: _ => some m.user.id
  else none

/-- Classify one split token: a direct `<@id>` mention, a plain `@username`
(resolved against the roster, display name retained), or ignored. -/
def parseUserToken (score : Int) (members : List GuildMember) (part : List Char) :
    Option WordleResult :=
  let trimmed := trimChars part
  if trimmed = [] then none
  else
    match matchMention trimmed with
    | some mid => some ⟨some mid, none, score⟩
    | none =>
      match trimmed with
      | '@' :: rest =>
        let username := String.mk rest
        some ⟨resolveUsername username members, some username, score⟩
      | _ => none

/-- Parse all results contributed by a single line. -/
def parseResultLine (line : String) (members : List GuildMember) : List WordleResult :=
  match matchResultLine line.data with
  | none => []
  | some (c, rest) =>
    let score := scoreOfChar c
    let userString := trimChars rest
    (splitUserParts [] userString).filterMap (parseUserToken score members)

/-- Embedded `parseResults`: every line is tried against the result pattern. -/
def parseResults (lines : List String) (members : List GuildMember) : List WordleResult :=
  (lines.map (fun l => parseResultLine l members)).flatten

/-! ## parseSolvedUnsolved: `/(\d+) solved and (\d+) unsolved games of Wordle/` -/
/-- Match the solved/unsolved pattern starting exactly at the head. -/
def solvedUnsolvedAt (cs : List Char) : Option (Nat × Nat) :=
  let p1 := takeDigits cs
  if p1.1 = [] then none
  else if " solved and ".data.isPrefixOf p1.2 then
    let r2 := p1.2.drop " solved and ".data.length
    let p2 := takeDigits r2
    if p2.1 ≠ [] ∧ " unsolved games of Wordle".data.isPrefixOf p2.2
    then some (digitsToNat p1.1, digitsToNat p2.1) else none
  else none

/-- Leftmost match of the solved/unsolved pattern in a line. -/
def findSolvedUnsolved : List Char → Option (Nat × Nat)
  | [] => none
  | c :: cs =>
    match solvedUnsolvedAt (c :: cs) with
    | some p => some p
    | none => findSolvedUnsolved cs

/-- Embedded `parseSolvedUnsolved`: scan all lines, the last matching line wins. -/
def parseSolvedUnsolved (lines : List String) : Option Nat × Option Nat :=
  lines.foldl
    (fun acc line =>
      match findSolvedUnsolved line.data with
      | some p => (some p.1, some p.2)
      | none => acc)
    (none, none)

/-! ## parseWordleSummary -/
/-- Embedded `parseWordleSummary(content, guildMembers)`: split into lines, extract the
streak from the first line, the results from every line, the solved/unsolved
counts; succeed only when the streak matched and at least one result was
extracted.  The source wraps the body in try/catch and logs on failure; the
body is total, so the embedding is a total function into `Option`. -/
def parseWordleSummary (content : String) (guildMembers : List GuildMember) :
    Option ParsedWordleSummary :=
  let lines := splitLines content
  let streak := parseStreak (lines.headD "")
  let results := parseResults lines guildMembers
  let su := parseSolvedUnsolved lines
  if streak.isSome && !results.isEmpty then
    some ⟨streak, results, su.1, su.2⟩
  else none

/-! ## storeResults.ts: deduplicated append -/
/-- One persisted result: `{ id: string | null; score: number }`. -/
structure StoredResult where
  id : Option String
  score : Int
deriving DecidableEq

/-- One persisted batch: `{ date: "YYYY-MM-DD", results: [...] }`.  The
batches written by this code always carry a `results` array. -/
structure StoredBatch where
  date : String
  results : List StoredResult
deriving DecidableEq

/-- JavaScript's default `Array.prototype.sort` comparison key for an
identity: `String(null)` is `"null"`, a string is itself. -/
def jsIdSortKey : Option String → String
  | none => "null"
  | some s => s

/-- JavaScript's `Array.prototype.join` piece for an identity: `null`
renders as the empty string, a string as itself. -/
def idPieceChars : Option String → List Char
  | none => []
  | some s => s.data

/-- Embedded `pieces.join(',')` on the character level. -/
def joinCommaChars : List (List Char) → List Char
  | [] => []
  | [p] => p
  | p :: q :: ps => p ++ ',' :: joinCommaChars (q :: ps)

/-- Lexicographic code-point comparison of character lists: the JavaScript
string comparison `a <= b` performed by the default sort comparator (the
strings involved are ASCII, where code-unit and code-point order agree). -/
def jsStrLeChars : List Char → List Char → Bool
  | [], _ => true
  | _ :: _, [] => false
  | a :: as, b :: bs => if a = b then jsStrLeChars as bs else decide (a < b)

/-- The comparison `String(a) <= String(b)` used by the default sort. -/
def idLe (a b : Option String) : Prop :=
  jsStrLeChars (jsIdSortKey a).data (jsIdSortKey b).data = true

instance : DecidableRel idLe := fun a b =>
  inferInstanceAs (Decidable (_ = true))

/-- The deduplication key of a batch's identities:
`results.map(r => r.id).sort().join(',')` — a stable sort by the JavaScript
string key, then a comma-join in which `null` is the empty piece. -/
def jsIdsKey (ids : List (Option String)) : String :=
  String.mk (joinCommaChars ((ids.insertionSort idLe).map idPieceChars))

/-- Embedded `storeWordleResult(date, parsed)` against an explicit store state: the
Firestore query for documents with the same date string is the filter; the
`forEach` duplicate flag is `any`; `add` appends.  The `Date` normalisation
`toISOString().slice(0, 10)` happens before this point, so the date is taken
as the already-normalised string; the write drops the `username` field. -/
def storeWordleResult (dateString : String) (parsed : ParsedWordleSummary)
    (store : List StoredBatch) : List StoredBatch :=
  let newResults := parsed.results.map (fun r => StoredResult.mk r.id r.score)
  let newKey := jsIdsKey (newResults.map (fun r => r.id))
  if (store.filter (fun b => b.date == dateString)).any
      (fun b => jsIdsKey (b.results.map (fun r => r.id)) == newKey)
  then store
  else store ++ [StoredBatch.mk dateString newResults]

/-! ## Deduplication-key lemmas -/
/-- A well-formed stored identity: either `null`, or a nonempty string of
ASCII digits (a Discord snowflake). -/
def WfId : Option String → Prop
  | none => True
  | some s => s ≠ "" ∧ ∀ c ∈ s.data, c.isDigit = true

instance : DecidablePred WfId := fun o =>
  match o with
  | none => isTrue trivial
  | some s => inferInstanceAs (Decidable (s ≠ "" ∧ ∀ c ∈ s.data, c.isDigit = true))

/-- Decoding a join piece: the empty piece is `null`, anything else is the
string itself. -/
def decodePiece (cs : List Char) : Option String :=
  if cs = [] then none else some (String.mk cs)

/-! ## aggregateStats.ts: data and date arithmetic -/
/-- Embedded `new Date(y, m, d)` day arithmetic: proleptic-Gregorian day number of a
calendar date (days since 1970-01-01, the civil-from-days algorithm).  The
aggregator only ever compares differences of these numbers, mirroring
`(Date.parse(b) - Date.parse(a)) / 86400000`. -/
def isLeapYear (y : Int) : Bool := y % 4 == 0 && (y % 100 != 0 || y % 400 == 0)

/-- Number of days in a month of a given year. -/
def daysInMonth (y : Int) (m : Nat) : Nat :=
  if m = 2 then (if isLeapYear y then 29 else 28)
  else if m = 4 ∨ m = 6 ∨ m = 9 ∨ m = 11 then 30 else 31

/-- Days since the epoch of a civil date (Gregorian calendar). -/
def daysFromCivil (y : Int) (m d : Nat) : Int :=
  let y2 : Int := if m ≤ 2 then y - 1 else y
  let era : Int := (if 0 ≤ y2 then y2 else y2 - 399) / 400
  let yoe : Int := y2 - era * 400
  let mp : Int := (m : Int) + (if 2 < m then -3 else 9)
  let doy : Int := (153 * mp + 2) / 5 + (d : Int) - 1
  let doe : Int := yoe * 365 + yoe / 4 - yoe / 100 + doy
  era * 146097 + doe - 719468

/-- Embedded `Date.parse` restricted to the date-only ISO form `YYYY-MM-DD` that the
stored date strings take (`toISOString().slice(0, 10)`): out-of-range
components give an invalid date (`none`, JavaScript `NaN`). -/
def parseIsoDate (s : String) : Option Int :=
  match s.data with
  | [y1, y2, y3, y4, '-', m1, m2, '-', d1, d2] =>
    if y1.isDigit && y2.isDigit && y3.isDigit && y4.isDigit &&
        m1.isDigit && m2.isDigit && d1.isDigit && d2.isDigit then
      let y : Int := (digitsToNat [y1, y2, y3, y4] : Int)
      let m : Nat := digitsToNat [m1, m2]
      let d : Nat := digitsToNat [d1, d2]
      if 1 ≤ m ∧ m ≤ 12 ∧ 1 ≤ d ∧ d ≤ daysInMonth y m then some (daysFromCivil y m d)
      else none
    else none
  | _ => none

/-- Embedded `(new Date(b).getTime() - new Date(a).getTime()) / 86400000` in days:
`none` when either date is invalid (the JavaScript value is `NaN`, which
compares unequal to everything). -/
def dayDiff (a b : String) : Option Int :=
  match parseIsoDate a, parseIsoDate b with
  | some x, some y => some (y - x)
  | _, _ => none

/-- One entry of `userGameHistory`: `{ date: string, score: number | null }`. -/
structure UserGame where
  date : String
  score : Option Int
deriving DecidableEq

/-! ## aggregateStats.ts: streak calculations (lines 95-133) -/
/-- The backward walk of the current-streak loop: `games[i]` is a prior game,
`succDate` the date of `games[i+1]`; count while the prior game is solved and
exactly one day before its successor. -/
def currentStreakBack : List UserGame → String → Nat
  | [], _ => 0
  | g :: rest, succDate =>
    if g.score != some (-1) && dayDiff g.date succDate == some 1
    then 1 + currentStreakBack rest g.date
    else 0

/-- The current-streak computation on the chronologically sorted game list:
anchored on the last game being a solve dated today or yesterday, then the
backward walk. -/
def currentStreakCalc (games : List UserGame) (today yesterday : String) : Nat :=
  match games.getLast? with
  | none => 0
  | some last =>
    if last.score != some (-1) && (last.date == today || last.date == yesterday)
    then 1 + currentStreakBack games.dropLast.reverse last.date
    else 0

/-- One step of the max-streak forward pass: the new running-streak value for
a game given the previous game's date (if any) and the running counter. -/
def maxStreakStep (prevDate : Option String) (running : Nat) (g : UserGame) : Nat :=
  if g.score != some (-1) then
    match prevDate with
    | none => 1
    | some pd => if dayDiff pd g.date == some 1 then running + 1 else 1
  else 0

/-- The max-streak forward pass, tracking the running maximum. -/
def maxStreakGo : List UserGame → Option String → Nat → Nat → Nat
  | [], _, _, mx => mx
  | g :: rest, prev, running, mx =>
    maxStreakGo rest (some g.date) (maxStreakStep prev running g)
      (max mx (maxStreakStep prev running g))

/-- The max-streak computation on the chronologically sorted game list. -/
def maxStreakCalc (games : List UserGame) : Nat := maxStreakGo games none 0 0

/-! ## aggregateStats.ts: records as insertion-ordered association lists -/
/-- Property lookup on a JavaScript object modelled as an insertion-ordered
association list. -/
def jsObjGet {β : Type} (m : List (String × β)) (k : String) : Option β :=
  (m.find? (fun p => p.1 == k)).map (fun p => p.2)

/-- Property assignment: overwrite in place when the key exists, append
otherwise. -/
def jsObjSet {β : Type} (m : List (String × β)) (k : String) (v : β) :
    List (String × β) :=
  if m.any (fun p => p.1 == k) then m.map (fun p => if p.1 == k then (k, v) else p)
  else m ++ [(k, v)]

/-! ## aggregateStats.ts: the aggregation -/
/-- One raw stored result as read back from a document. -/
structure DocResult where
  id : Option String
  score : Option Int
deriving DecidableEq

/-- One raw stored document.  `date = none` models a missing or unparseable
date value (on which `toIsoString` on an invalid `Date` — or a property
access on a missing field — throws); `date = some s` carries the normalised
`YYYY-MM-DD` slice.  `results = none` models a missing `results` field, over
which the `for…of` iteration throws. -/
structure RawDoc where
  date : Option String
  results : Option (List DocResult)
  wordleNumber : Option Int
deriving DecidableEq

/-- Embedded `UserStats`.  Numbers produced by division are rationals; a distribution
value of `none` models the JavaScript `NaN` produced by incrementing an
absent bucket. -/
structure UserStats where
  id : String
  username : String
  gamesPlayed : Nat
  gamesSolved : Nat
  winRate : ℚ
  averageScore : Option ℚ
  currentStreak : Nat
  maxStreak : Nat
  distribution : List (String × Option Int)
  guessCounts : List (String × Option Int)
deriving DecidableEq

/-- Embedded `DailySummary`. -/
structure DailySummary where
  date : String
  wordleNumber : Option Int
  totalPlayers : Nat
  successRate : ℚ
  averageScore : Option ℚ
  distribution : List (String × Int)
  winners : List DocResult
  results : List DocResult
deriving DecidableEq

/-- Embedded `AllTimeLeaderboards`. -/
structure AllTimeLeaderboards where
  longestStreak : List UserStats
  bestWinRate : List UserStats
  bestAverageScore : List UserStats
deriving DecidableEq

/-- Embedded `AggregatedStats`, the aggregator's return value. -/
structure AggregatedStats where
  dailySummary : Option DailySummary
  userStats : List (String × UserStats)
  allTimeLeaderboards : AllTimeLeaderboards
deriving DecidableEq

/-- The object key `String(score)` used by the per-user distribution and
guess-count increments; an absent score yields the `undefined` key. -/
def scoreKey : Option Int → String
  | none => "undefined"
  | some k => toString k

/-- Embedded `record[k]++`: an existing numeric bucket is incremented, an existing
`NaN` stays `NaN`, an absent bucket becomes `NaN` (`undefined + 1`). -/
def bumpKey (m : List (String × Option Int)) (k : String) :
    List (String × Option Int) :=
  match jsObjGet m k with
  | some (some v) => jsObjSet m k (some (v + 1))
  | some none => jsObjSet m k none
  | none => jsObjSet m k none

/-- The distribution literal `{1: 0, ..., 6: 0, -1: 0}`. -/
def initDistribution : List (String × Option Int) :=
  [("1", some 0), ("2", some 0), ("3", some 0), ("4", some 0), ("5", some 0),
   ("6", some 0), ("-1", some 0)]

/-- The guess-count literal `{1: 0, ..., 6: 0}`. -/
def initGuessCounts : List (String × Option Int) :=
  [("1", some 0), ("2", some 0), ("3", some 0), ("4", some 0), ("5", some 0),
   ("6", some 0)]

/-- JavaScript addition where `none` is `NaN`-like (an absent score poisons
the sum). -/
def jsAdd : Option Int → Option Int → Option Int
  | some a, some b => some (a + b)
  | _, _ => none

/-- Embedded `a.date.localeCompare(b.date) <= 0` as the sort order of the per-user
game list (code-unit comparison on the ASCII date strings). -/
def dateLe (a b : UserGame) : Prop := jsStrLeChars a.date.data b.date.data = true

instance : DecidableRel dateLe := fun a b => inferInstanceAs (Decidable (_ = true))

/-- String order used on the date keys (`Object.keys(...).sort()`). -/
def strLe (a b : String) : Prop := jsStrLeChars a.data b.data = true

instance : DecidableRel strLe := fun a b => inferInstanceAs (Decidable (_ = true))

/-- Embedded `userId.slice(-4)`. -/
def lastFour (s : String) : String := String.mk (s.data.drop (s.data.length - 4))

/-- Embedded `userIdToName[userId] || `User...${userId.slice(-4)}``: an absent or
empty (falsy) name falls back to the truncated id. -/
def usernameFor (userIdToName : List (String × String)) (userId : String) : String :=
  match jsObjGet userIdToName userId with
  | some n => if n == "" then "User..." ++ lastFour userId else n
  | none => "User..." ++ lastFour userId

/-- The per-user block of the aggregation's second pass (lines 80-148):
sort chronologically, tally, compute streaks. -/
def mkUserStats (userId : String) (games0 : List UserGame)
    (userIdToName : List (String × String)) (today yesterday : String) : UserStats :=
  let games := games0.insertionSort dateLe
  let solvedGames := games.filter (fun g => g.score != some (-1))
  let totalScore := solvedGames.foldl (fun acc g => jsAdd acc g.score) (some 0)
  let dist0 := solvedGames.foldl (fun m g => bumpKey m (scoreKey g.score)) initDistribution
  let distribution := jsObjSet dist0 "-1"
    (some ((games.length : Int) - (solvedGames.length : Int)))
  let guessCounts := solvedGames.foldl (fun m g => bumpKey m (scoreKey g.score)) initGuessCounts
  { id := userId
    username := usernameFor userIdToName userId
    gamesPlayed := games.length
    gamesSolved := solvedGames.length
    winRate := if 0 < games.length then (solvedGames.length : ℚ) / (games.length : ℚ) else 0
    averageScore :=
      if 0 < solvedGames.length then
        totalScore.map (fun t => (t : ℚ) / (solvedGames.length : ℚ))
      else none
    currentStreak := currentStreakCalc games today yesterday
    maxStreak := maxStreakCalc games
    distribution := distribution
    guessCounts := guessCounts }

/-- Push one result into `userGameHistory`, skipping null identities
(`result.id == null`). -/
def pushGame (h : List (String × List UserGame)) (date : String) (r : DocResult) :
    List (String × List UserGame) :=
  match r.id with
  | none => h
  | some uid =>
    jsObjSet h uid ((jsObjGet h uid).getD [] ++ [UserGame.mk date r.score])

/-- Fold one document's results into `userGameHistory`. -/
def addDocToHistory (h : List (String × List UserGame)) (date : String)
    (results : List DocResult) : List (String × List UserGame) :=
  results.foldl (fun acc r => pushGame acc date r) h

/-- The daily-distribution key: `-1` for the fail score and for an absent
(`== null`) score, otherwise the decimal string. -/
def dailyScoreKey : Option Int → String
  | none => "-1"
  | some k => if k = -1 then "-1" else toString k

/-- Embedded `acc[key] = (acc[key] || 0) + 1` of the daily-distribution reduce. -/
def dailyDistAdd (m : List (String × Int)) (k : String) : List (String × Int) :=
  match jsObjGet m k with
  | some v => jsObjSet m k (v + 1)
  | none => jsObjSet m k 1

/-- The daily-summary block (lines 150-170) applied to one day's results. -/
def mkDailySummary (date : String) (results : List DocResult) (wn : Option Int) :
    DailySummary :=
  let winners := results.filter (fun r => r.score != some (-1))
  let totalScore := winners.foldl (fun acc r => jsAdd acc r.score) (some 0)
  { date := date
    wordleNumber := wn
    totalPlayers := results.length
    successRate :=
      if 0 < results.length then ((winners.length : ℚ) / (results.length : ℚ)) * 100 else 0
    averageScore :=
      if 0 < winners.length then totalScore.map (fun t => (t : ℚ) / (winners.length : ℚ))
      else none
    winners := winners
    results := results
    distribution := results.foldl (fun m r => dailyDistAdd m (dailyScoreKey r.score)) [] }

/-- Sort order of the longest-streak leaderboard: comparator
`b.maxStreak - a.maxStreak` (descending). -/
def streakGe (a b : UserStats) : Prop := b.maxStreak ≤ a.maxStreak

instance : DecidableRel streakGe := fun a b => inferInstanceAs (Decidable (_ ≤ _))

/-- Sort order of the win-rate leaderboard: descending. -/
def winRateGe (a b : UserStats) : Prop := b.winRate ≤ a.winRate

instance : DecidableRel winRateGe := fun a b => inferInstanceAs (Decidable (_ ≤ _))

/-- Sort order of the average-score leaderboard: ascending on the (present)
averages. -/
def avgLe (a b : UserStats) : Prop := a.averageScore.getD 0 ≤ b.averageScore.getD 0

instance : DecidableRel avgLe := fun a b => inferInstanceAs (Decidable (_ ≤ _))

/-- Decode one Firestore document of the first pass: a missing/unparseable
date or a missing results array throws. -/
def decodeDoc (doc : RawDoc) : Except Unit (String × List DocResult × Option Int) :=
  match doc.date, doc.results with
  | some d, some rs => Except.ok (d, rs, doc.wordleNumber)
  | _, _ => Except.error ()

/-- Decode all documents in snapshot order; the first failure aborts the
whole aggregation (the callback's exception propagates out of `forEach`). -/
def decodeDocs : List RawDoc → Except Unit (List (String × List DocResult × Option Int))
  | [] => Except.ok []
  | doc :: docs =>
    match decodeDoc doc with
    | Except.error e => Except.error e
    | Except.ok x =>
      match decodeDocs docs with
      | Except.error e => Except.error e
      | Except.ok xs => Except.ok (x :: xs)

/-- The pure part of the aggregation after the snapshot decoded: group by
date (later documents overwrite earlier ones with the same date key) and by
user, build per-user stats, the daily summary of the lexicographically
largest date key, and the three top-5 leaderboards. -/
def buildAggregated (decoded : List (String × List DocResult × Option Int))
    (userIdToName : List (String × String)) (today yesterday : String) :
    AggregatedStats :=
  let allResultsByDate := decoded.foldl (fun m e => jsObjSet m e.1 (e.2.1, e.2.2)) []
  let userGameHistory := decoded.foldl (fun h e => addDocToHistory h e.1 e.2.1) []
  let userStats := userGameHistory.map
    (fun p => (p.1, mkUserStats p.1 p.2 userIdToName today yesterday))
  let mostRecentDate := ((allResultsByDate.map (fun p => p.1)).insertionSort strLe).getLastD ""
  let latest := (jsObjGet allResultsByDate mostRecentDate).getD ([], none)
  let statsList := userStats.map (fun p => p.2)
  let qualified := statsList.filter (fun s => 0 < s.gamesPlayed)
  { dailySummary := some (mkDailySummary mostRecentDate latest.1 latest.2)
    userStats := userStats
    allTimeLeaderboards :=
      { longestStreak := (statsList.insertionSort streakGe).take 5
        bestWinRate := (qualified.insertionSort winRateGe).take 5
        bestAverageScore :=
          ((qualified.filter (fun s => s.averageScore.isSome)).insertionSort avgLe).take 5 } }

/-- Embedded `aggregateWordleStats(userIdToName)`, with the snapshot (already ordered
by the store's date-descending query), and the aggregation instant's `today`
and `yesterday` date strings, made explicit inputs. -/
def aggregateWordleStats (docs : List RawDoc) (userIdToName : List (String × String))
    (today yesterday : String) : Except Unit AggregatedStats :=
  if docs.isEmpty then
    Except.ok ⟨none, [], ⟨[], [], []⟩⟩
  else
    match decodeDocs docs with
    | Except.error e => Except.error e
    | Except.ok decoded => Except.ok (buildAggregated decoded userIdToName today yesterday)

/-! ## Streak characterizations (spec-side formulations) -/
/-- One backward step of the current-streak walk qualifies when the prior
game (first component) is solved and dated exactly one day before its
successor (second component). -/
def backPairsQualify (p : UserGame × UserGame) : Bool :=
  p.1.score != some (-1) && dayDiff p.1.date p.2.date == some 1

/-- The list of running-counter values of the max-streak pass, one per game,
per the recurrence: 1 on a solve at the first game or after a gap other than
one day, incremented on a solve one day after the previous game, 0 on a
failure. -/
def runningValues : List UserGame → Option String → Nat → List Nat
  | [], _, _ => []
  | g :: rest, prev, run =>
    maxStreakStep prev run g :: runningValues rest (some g.date) (maxStreakStep prev run g)

/-- The games contributed by one document's results to one user: the results
carrying that identity, in order, stamped with the document's date. -/
def gamesOf (date : String) (rs : List DocResult) (uid : String) : List UserGame :=
  (rs.filter (fun r => r.id == some uid)).map (fun r => UserGame.mk date r.score)

/-! ## resultsInfographic.ts: tie-aware medal assignment -/
/-- The two sort directions of `formatLeaderboardCategory`. -/
inductive SortDirection where
  | asc
  | desc
deriving DecidableEq

/-- The comparator-induced order of the medal loop's sort: for `desc` the
comparator `valB - valA` puts larger values first, for `asc` smaller values
first.  (All values are present on the filtered stats; `getD 0` is the mere
totalisation of the extractor.) -/
def lbValLe (dir : SortDirection) (f : UserStats → Option ℚ) (a b : UserStats) : Prop :=
  match dir with
  | SortDirection.desc => (f b).getD 0 ≤ (f a).getD 0
  | SortDirection.asc => (f a).getD 0 ≤ (f b).getD 0

instance (dir : SortDirection) (f : UserStats → Option ℚ) : DecidableRel (lbValLe dir f) :=
  fun a b =>
    match dir with
    | SortDirection.desc => inferInstanceAs (Decidable ((f b).getD 0 ≤ (f a).getD 0))
    | SortDirection.asc => inferInstanceAs (Decidable ((f a).getD 0 ≤ (f b).getD 0))

instance (dir : SortDirection) (f : UserStats → Option ℚ) :
    IsTrans UserStats (lbValLe dir f) := by
  constructor
  intro a b c hab hbc
  cases dir
  · exact le_trans hab hbc
  · exact le_trans hbc hab

instance (dir : SortDirection) (f : UserStats → Option ℚ) :
    IsTotal UserStats (lbValLe dir f) := by
  constructor
  intro a b
  cases dir
  · exact le_total ((f a).getD 0) ((f b).getD 0)
  · exact le_total ((f b).getD 0) ((f a).getD 0)

/-- Embedded `Set.prototype.add` on a set of ids modelled as a duplicate-free list. -/
def setAdd (s : List String) (x : String) : List String :=
  if s.contains x then s else s ++ [x]

/-- The medal-placement loop of `formatLeaderboardCategory` (lines 234-258),
stripped of its presentational string assembly: for each remaining medal tier
it filters out already-placed users, stops if none remain, sorts the rest by
the comparator, reads the top value, groups every remaining user tied on
exactly that value under the current medal, marks them placed, and stops
early once every relevant user is placed.  It returns the `(topValue,
tiedPlayers)` group of each medal tier. -/
def lbGroupsGo (f : UserStats → Option ℚ) (dir : SortDirection)
    (relevant : List UserStats) : List String → Nat → List (ℚ × List UserStats)
  | _, 0 => []
  | placed, fuel + 1 =>
    let remaining := relevant.filter (fun s => !placed.contains s.id)
    if remaining.isEmpty then []
    else
      match remaining.insertionSort (lbValLe dir f) with
      | [] => []
      | top :: rest =>
        let tv := (f top).getD 0
        let tied := (top :: rest).filter (fun s => decide (f s = some tv))
        if tied.isEmpty then lbGroupsGo f dir relevant placed fuel
        else
          (tv, tied) ::
            (if relevant.length ≤ (tied.foldl (fun acc s => setAdd acc s.id) placed).length
             then []
             else lbGroupsGo f dir relevant
               (tied.foldl (fun acc s => setAdd acc s.id) placed) fuel)

/-- Embedded `formatLeaderboardCategory`'s placement structure: filter to the users
with a present value, then run the three-medal loop with an empty placed
set. -/
def formatLeaderboardGroups (stats : List UserStats) (f : UserStats → Option ℚ)
    (dir : SortDirection) : List (ℚ × List UserStats) :=
  let relevant := stats.filter (fun s => (f s).isSome)
  if relevant.isEmpty then [] else lbGroupsGo f dir relevant [] 3

/-- Relation stating `x` is no better than `b` in the given direction (`b` wins ties). -/
def dirGood (dir : SortDirection) (x b : ℚ) : Prop :=
  match dir with
  | SortDirection.desc => x ≤ b
  | SortDirection.asc => b ≤ x

/-- One step of folding for the best value in a direction. -/
def bestOp (dir : SortDirection) (a x : ℚ) : ℚ :=
  match dir with
  | SortDirection.desc => max a x
  | SortDirection.asc => min a x

/-- The best (maximal for `desc`, minimal for `asc`) of a nonempty collection
of values, given as a head value and the remaining values. -/
def bestValue (dir : SortDirection) (v : ℚ) (vs : List ℚ) : ℚ :=
  vs.foldl (bestOp dir) v

/-- Modelled from the claim's wording: tie-aware group-rank assignment.  For
each tier, take the best value of the pool, group every pool member whose
value equals it, and continue with the rest of the pool; stop when the pool
is exhausted or no tier remains. -/
def specMedalGroups (f : UserStats → Option ℚ) (dir : SortDirection) :
    List UserStats → Nat → List (ℚ × List UserStats)
  | _, 0 => []
  | pool, fuel + 1 =>
    match pool with
    | [] => []
    | p :: ps =>
      let best := bestValue dir ((f p).getD 0) (ps.map (fun s => (f s).getD 0))
      (best, (p :: ps).filter (fun s => decide (f s = some best))) ::
        specMedalGroups f dir
          ((p :: ps).filter (fun s => !decide (f s = some best))) fuel

/-! ## Parser lemmas -/
theorem dropWhile_eq_self_of_forall_not {p : Char → Bool} {cs : List Char}
    (h : ∀ c ∈ cs, p c = false) : cs.dropWhile p = cs := by
  cases cs with
  | nil => rfl
  | cons c rest => simp [List.dropWhile_cons, h c (by simp)]

theorem trimChars_eq_self {cs : List Char}
    (h : ∀ c ∈ cs, isJsTrimWs c = false) : trimChars cs = cs := by
  unfold trimChars
  rw [dropWhile_eq_self_of_forall_not h,
    dropWhile_eq_self_of_forall_not (by intro c hc; exact h c (by simpa using hc)),
    List.reverse_reverse]

theorem splitUserParts_of_no_space (acc : List Char) (cs : List Char)
    (h : ∀ c ∈ cs, c ≠ ' ') : splitUserParts acc cs = [acc.reverse ++ cs] := by
  induction cs generalizing acc with
  | nil => simp [splitUserParts]
  | cons c rest ih =>
    rw [splitUserParts, if_neg (by simp [h c (by simp)])]
    rw [ih (c :: acc) (fun x hx => h x (by simp [hx]))]
    simp

/-- Claim C1: the code evaluated at the failing input.  The score-token class of
the result-line pattern is `[X\d]`, which accepts the digit `0` (and 7-9), so
the line `0/6: @bob` parses and a result with score `0` — outside
`{-1} ∪ {1..6}` — is returned by `parseWordleSummary`. -/
theorem parseWordleSummary_returns_score_zero :
    parseWordleSummary "on a 5 day streak\n0/6: @bob" [] =
      some ⟨some 5, [⟨none, some "bob", 0⟩], none, none⟩ := by decide

/-- Claim C2: `parseWordleSummary` is a total function (the embedding of a body
that cannot throw), it returns a summary exactly when the streak pattern
matches on the first line and at least one result was extracted, and on the
empty string (whose only line has no streak) it returns `none`. -/
theorem parseWordleSummary_some_iff (content : String) (members : List GuildMember) :
    ((parseWordleSummary content members).isSome ↔
      (parseStreak ((splitLines content).headD "")).isSome = true ∧
        parseResults (splitLines content) members ≠ []) ∧
    parseWordleSummary "" members = none := by
  constructor
  · simp only [parseWordleSummary]
    split <;> rename_i h
    · simp only [Option.isSome_some, true_iff]
      simp only [Bool.and_eq_true, Bool.not_eq_true', List.isEmpty_eq_false] at h
      exact ⟨h.1, h.2⟩
    · simp only [Option.isSome_none, Bool.false_eq_true, false_iff]
      intro hc
      simp only [Bool.and_eq_true, Bool.not_eq_true', List.isEmpty_eq_false] at h
      exact h ⟨hc.1, hc.2⟩
  · rfl

/-- Claim C8: plain-text `@username` resolution.  Matching against the roster
depends only on the lower-cased query (case-insensitive against username and
nickname); zero roster matches resolve to `none`; one or more matches resolve
to the first matching entry in roster order; and a matched result line whose
written name contains no character that JavaScript `trim` removes keeps that
name as the display name alongside the resolved identity. -/
theorem resolveUsername_roster_semantics (u v : String) (members : List GuildMember) :
    (lowerStr u = lowerStr v → resolveUsername u members = resolveUsername v members) ∧
    (members.filter (memberMatchesName (lowerStr u)) = [] →
      resolveUsername u members = none) ∧
    (∀ m ms, members.filter (memberMatchesName (lowerStr u)) = m :: ms →
      resolveUsername u members = some m.user.id) ∧
    ((∀ c ∈ u.data, isJsTrimWs c = false) →
      parseResultLine ("3/6: @" ++ u) members =
        [⟨resolveUsername u members, some u, 3⟩]) := by
  refine ⟨?_, ?_, ?_, ?_⟩
  · intro huv
    unfold resolveUsername
    rw [huv]
  · intro hfil
    unfold resolveUsername
    rw [hfil]
    simp
  · intro m ms hfil
    have hne : members ≠ [] := by
      intro he
      rw [he] at hfil
      simp at hfil
    unfold resolveUsername
    rw [if_pos (by cases members with | nil => exact absurd rfl hne | cons a l => simp)]
    rw [hfil]
  · intro hu
    have hnoterm : ∀ c ∈ u.data, isJsLineTerminator c = false := by
      intro c hc
      have hw := hu c hc
      have hr : c ≠ '\r' := by
        intro he
        rw [he] at hw
        exact absurd hw (by decide)
      have h28 : c ≠ Char.ofNat 0x2028 := by
        intro he
        rw [he] at hw
        exact absurd hw (by decide)
      have h29 : c ≠ Char.ofNat 0x2029 := by
        intro he
        rw [he] at hw
        exact absurd hw (by decide)
      simp [isJsLineTerminator, hr, h28, h29]
    have hnospace : ∀ c ∈ u.data, c ≠ ' ' := by
      intro c hc he
      have hw := hu c hc
      rw [he] at hw
      exact absurd hw (by decide)
    have hdata : ("3/6: @" ++ u).data
        = '3' :: '/' :: '6' :: ':' :: ' ' :: '@' :: u.data := by
      rw [String.data_append]
      rfl
    unfold parseResultLine
    rw [hdata]
    have hmatch : matchResultLine ('3' :: '/' :: '6' :: ':' :: ' ' :: '@' :: u.data)
        = some ('3', '@' :: u.data) := by
      show (if ('3' = 'X' ∨ '3'.isDigit) ∧ ('@' :: u.data) ≠ [] ∧
          ('@' :: u.data).all (fun x => !isJsLineTerminator x)
        then some ('3', '@' :: u.data) else none) = some ('3', '@' :: u.data)
      rw [if_pos]
      refine ⟨Or.inr (by decide), by simp, ?_⟩
      simp only [List.all_cons, Bool.and_eq_true]
      refine ⟨by decide, ?_⟩
      rw [List.all_eq_true]
      intro c hc
      simp [hnoterm c hc]
    rw [hmatch]
    have htrim : trimChars ('@' :: u.data) = '@' :: u.data := by
      apply trimChars_eq_self
      intro c hc
      rcases List.mem_cons.mp hc with h | h
      · rw [h]; decide
      · exact hu c h
    show (splitUserParts [] (trimChars ('@' :: u.data))).filterMap
        (parseUserToken (scoreOfChar '3') members) = _
    rw [htrim]
    rw [splitUserParts_of_no_space [] ('@' :: u.data)
      (by intro c hc
          rcases List.mem_cons.mp hc with h | h
          · rw [h]; decide
          · exact hnospace c h)]
    have htok : parseUserToken (scoreOfChar '3') members ('@' :: u.data)
        = some ⟨resolveUsername u members, some u, 3⟩ := by
      unfold parseUserToken
      simp only [htrim]
      rw [if_neg (by simp)]
      rfl
    simp only [List.reverse_nil, List.nil_append, List.filterMap_cons, htok]
    rfl

/-- Closed instance of the resolution semantics: with roster
`[{id: 1, username: alice}]`, the token `@Alice` resolves case-insensitively
to identity `1`, and a `3/6:` line carrying it yields exactly that result with
the display name retained. -/
theorem resolveUsername_roster_semantics_witness :
    resolveUsername "Alice" [⟨⟨"1", "alice"⟩, none⟩] = some "1" ∧
    parseResultLine "3/6: @Alice" [⟨⟨"1", "alice"⟩, none⟩] =
      [⟨some "1", some "Alice", 3⟩] := by
  have h := resolveUsername_roster_semantics "Alice" "alice" [⟨⟨"1", "alice"⟩, none⟩]
  have h1 : resolveUsername "Alice" [⟨⟨"1", "alice"⟩, none⟩] = some "1" :=
    h.2.2.1 ⟨⟨"1", "alice"⟩, none⟩ [] (by decide)
  refine ⟨h1, ?_⟩
  have h2 := h.2.2.2 (by decide)
  rw [h1] at h2
  exact h2

theorem jsStrLeChars_total : ∀ as bs, jsStrLeChars as bs || jsStrLeChars bs as := by
  intro as
  induction as with
  | nil => intro bs; simp [jsStrLeChars]
  | cons a as ih =>
    intro bs
    cases bs with
    | nil => simp [jsStrLeChars]
    | cons b bs =>
      by_cases hab : a = b
      · subst hab
        simpa [jsStrLeChars] using ih bs
      · rcases lt_trichotomy a b with h | h | h
        · simp [jsStrLeChars, hab, h]
        · exact absurd h hab
        · simp [jsStrLeChars, hab, Ne.symm hab, h]

theorem jsStrLeChars_trans :
    ∀ as bs cs, jsStrLeChars as bs → jsStrLeChars bs cs → jsStrLeChars as cs := by
  intro as
  induction as with
  | nil => intro bs cs _ _; simp [jsStrLeChars]
  | cons a as ih =>
    intro bs cs h1 h2
    cases bs with
    | nil => simp [jsStrLeChars] at h1
    | cons b bs =>
      cases cs with
      | nil => simp [jsStrLeChars] at h2
      | cons c cs =>
        by_cases hab : a = b <;> by_cases hbc : b = c
        · subst hab; subst hbc
          simp only [jsStrLeChars, if_pos rfl] at h1 h2 ⊢
          exact ih bs cs h1 h2
        · subst hab
          simpa [jsStrLeChars, hbc] using h2
        · subst hbc
          simpa [jsStrLeChars, hab] using h1
        · simp only [jsStrLeChars, if_neg hab, decide_eq_true_eq] at h1
          simp only [jsStrLeChars, if_neg hbc, decide_eq_true_eq] at h2
          have hac : a < c := lt_trans h1 h2
          simp [jsStrLeChars, ne_of_lt hac, hac]

theorem jsStrLeChars_antisymm :
    ∀ as bs, jsStrLeChars as bs → jsStrLeChars bs as → as = bs := by
  intro as
  induction as with
  | nil =>
    intro bs h1 h2
    cases bs with
    | nil => rfl
    | cons b bs => simp [jsStrLeChars] at h2
  | cons a as ih =>
    intro bs h1 h2
    cases bs with
    | nil => simp [jsStrLeChars] at h1
    | cons b bs =>
      by_cases hab : a = b
      · subst hab
        simp only [jsStrLeChars, if_pos rfl] at h1 h2
        rw [ih bs h1 h2]
      · simp only [jsStrLeChars, if_neg hab, decide_eq_true_eq] at h1
        simp only [jsStrLeChars, if_neg (Ne.symm hab), decide_eq_true_eq] at h2
        exact absurd (lt_trans h1 h2) (lt_irrefl a)

instance : IsTrans (Option String) idLe :=
  ⟨fun _ _ _ h1 h2 => jsStrLeChars_trans _ _ _ h1 h2⟩

instance : IsTotal (Option String) idLe :=
  ⟨fun a b => Bool.or_eq_true_iff.mp
    (jsStrLeChars_total (jsIdSortKey a).data (jsIdSortKey b).data)⟩

instance : IsTrans UserGame dateLe := ⟨fun _ _ _ h1 h2 => jsStrLeChars_trans _ _ _ h1 h2⟩

instance : IsTotal UserGame dateLe :=
  ⟨fun a b => Bool.or_eq_true_iff.mp (jsStrLeChars_total a.date.data b.date.data)⟩

theorem append_comma_cancel :
    ∀ (p q r1 r2 : List Char), ',' ∉ p → ',' ∉ q →
      p ++ ',' :: r1 = q ++ ',' :: r2 → p = q ∧ r1 = r2 := by
  intro p
  induction p with
  | nil =>
    intro q r1 r2 _ hq heq
    cases q with
    | nil => simpa using heq
    | cons d q' =>
      exfalso
      simp only [List.nil_append, List.cons_append, List.cons.injEq] at heq
      exact hq (heq.1 ▸ List.mem_cons_self d q')
  | cons c p' ih =>
    intro q r1 r2 hp hq heq
    cases q with
    | nil =>
      exfalso
      simp only [List.cons_append, List.nil_append, List.cons.injEq] at heq
      exact hp (heq.1 ▸ List.mem_cons_self c p')
    | cons d q' =>
      simp only [List.cons_append, List.cons.injEq] at heq
      obtain ⟨rfl, heq2⟩ := heq
      obtain ⟨h1, h2⟩ := ih q' r1 r2 (fun hm => hp (List.mem_cons_of_mem _ hm))
        (fun hm => hq (List.mem_cons_of_mem _ hm)) heq2
      exact ⟨by rw [h1], h2⟩

theorem comma_mem_joinCommaChars (p : List Char) (q : List Char) (ps : List (List Char)) :
    ',' ∈ joinCommaChars (p :: q :: ps) := by
  rw [joinCommaChars]
  simp

theorem joinCommaChars_inj :
    ∀ (l1 l2 : List (List Char)), (∀ p ∈ l1, ',' ∉ p) → (∀ p ∈ l2, ',' ∉ p) →
      l1 ≠ [] → l2 ≠ [] → joinCommaChars l1 = joinCommaChars l2 → l1 = l2 := by
  intro l1
  induction l1 with
  | nil => intro l2 _ _ hne; exact absurd rfl hne
  | cons p ps ih =>
    intro l2 h1 h2 _ hne2 heq
    cases l2 with
    | nil => exact absurd rfl hne2
    | cons q qs =>
      cases ps with
      | nil =>
        cases qs with
        | nil =>
          simp only [joinCommaChars] at heq
          rw [heq]
        | cons q2 qs' =>
          exfalso
          have hm : ',' ∈ joinCommaChars [p] := by
            rw [heq]; exact comma_mem_joinCommaChars q q2 qs'
          rw [joinCommaChars] at hm
          exact h1 p (List.mem_cons_self p []) hm
      | cons p2 ps' =>
        cases qs with
        | nil =>
          exfalso
          have hm : ',' ∈ joinCommaChars [q] := by
            rw [← heq]; exact comma_mem_joinCommaChars p p2 ps'
          rw [joinCommaChars] at hm
          exact h2 q (List.mem_cons_self q []) hm
        | cons q2 qs' =>
          rw [joinCommaChars, joinCommaChars] at heq
          obtain ⟨hpq, hrest⟩ := append_comma_cancel p q _ _
            (h1 p (List.mem_cons_self p _)) (h2 q (List.mem_cons_self q _)) heq
          have htail := ih (q2 :: qs') (fun x hx => h1 x (List.mem_cons_of_mem _ hx))
            (fun x hx => h2 x (List.mem_cons_of_mem _ hx))
            (by simp) (by simp) hrest
          rw [hpq, htail]

theorem decodePiece_idPieceChars {id : Option String} (h : WfId id) :
    decodePiece (idPieceChars id) = id := by
  cases id with
  | none => rfl
  | some s =>
    obtain ⟨hne, _⟩ := h
    have hd : s.data ≠ [] := by
      intro he
      apply hne
      have hmk : String.mk s.data = String.mk [] := by rw [he]
      simpa using hmk
    simp only [idPieceChars, decodePiece, if_neg hd]

theorem map_idPieceChars_inj {l1 l2 : List (Option String)}
    (h1 : ∀ id ∈ l1, WfId id) (h2 : ∀ id ∈ l2, WfId id)
    (heq : l1.map idPieceChars = l2.map idPieceChars) : l1 = l2 := by
  have e1 : (l1.map idPieceChars).map decodePiece = l1 := by
    rw [List.map_map]
    have hcongr : l1.map (decodePiece ∘ idPieceChars) = l1.map id :=
      List.map_congr_left (fun a ha => decodePiece_idPieceChars (h1 a ha))
    rw [hcongr, List.map_id]
  have e2 : (l2.map idPieceChars).map decodePiece = l2 := by
    rw [List.map_map]
    have hcongr : l2.map (decodePiece ∘ idPieceChars) = l2.map id :=
      List.map_congr_left (fun a ha => decodePiece_idPieceChars (h2 a ha))
    rw [hcongr, List.map_id]
  rw [← e1, ← e2, heq]

theorem no_comma_of_wf {id : Option String} (h : WfId id) : ',' ∉ idPieceChars id := by
  cases id with
  | none => simp [idPieceChars]
  | some s =>
    obtain ⟨_, hdig⟩ := h
    intro hm
    have hcd := hdig ',' hm
    simp at hcd

theorem jsIdSortKey_inj {a b : Option String} (ha : WfId a) (hb : WfId b)
    (h : jsIdSortKey a = jsIdSortKey b) : a = b := by
  cases a with
  | none =>
    cases b with
    | none => rfl
    | some s =>
      exfalso
      obtain ⟨_, hdig⟩ := hb
      have hs : s = "null" := by simpa [jsIdSortKey] using h.symm
      have hn : ('n' : Char) ∈ s.data := by rw [hs]; decide
      have hcd := hdig 'n' hn
      simp at hcd
  | some s =>
    cases b with
    | none =>
      exfalso
      obtain ⟨_, hdig⟩ := ha
      have hs : s = "null" := by simpa [jsIdSortKey] using h
      have hn : ('n' : Char) ∈ s.data := by rw [hs]; decide
      have hcd := hdig 'n' hn
      simp at hcd
    | some t => simpa [jsIdSortKey] using h

theorem insertionSort_idLe_eq_of_perm {l1 l2 : List (Option String)}
    (hp : l1.Perm l2) (h1 : ∀ id ∈ l1, WfId id) :
    l1.insertionSort idLe = l2.insertionSort idLe := by
  have h2 : ∀ id ∈ l2, WfId id := fun id hm => h1 id (hp.mem_iff.mpr hm)
  refine List.Perm.eq_of_sorted ?_ (List.sorted_insertionSort idLe l1)
    (List.sorted_insertionSort idLe l2)
    (((l1.perm_insertionSort idLe).trans hp).trans (l2.perm_insertionSort idLe).symm)
  intro a b hma hmb hab hba
  have hwa : WfId a := h1 a ((List.mem_insertionSort idLe).mp hma)
  have hwb : WfId b := h2 b ((List.mem_insertionSort idLe).mp hmb)
  exact jsIdSortKey_inj hwa hwb (String.ext (jsStrLeChars_antisymm _ _ hab hba))

/-- The dedup keys of two nonempty lists of well-formed identities agree
exactly when the lists are permutations of each other (same multiset of
identities, `null` being one more possible identity value). -/
theorem jsIdsKey_eq_iff {l1 l2 : List (Option String)}
    (h1 : ∀ id ∈ l1, WfId id) (h2 : ∀ id ∈ l2, WfId id)
    (n1 : l1 ≠ []) (n2 : l2 ≠ []) :
    jsIdsKey l1 = jsIdsKey l2 ↔ l1.Perm l2 := by
  constructor
  · intro heq
    have hs1 : ∀ id ∈ l1.insertionSort idLe, WfId id :=
      fun id hm => h1 id ((List.mem_insertionSort idLe).mp hm)
    have hs2 : ∀ id ∈ l2.insertionSort idLe, WfId id :=
      fun id hm => h2 id ((List.mem_insertionSort idLe).mp hm)
    have hjoin : joinCommaChars ((l1.insertionSort idLe).map idPieceChars)
        = joinCommaChars ((l2.insertionSort idLe).map idPieceChars) := by
      have hdata := congrArg String.data heq
      simpa [jsIdsKey] using hdata
    have hmaps : (l1.insertionSort idLe).map idPieceChars
        = (l2.insertionSort idLe).map idPieceChars := by
      apply joinCommaChars_inj _ _ ?_ ?_ ?_ ?_ hjoin
      · intro p hp
        obtain ⟨id, hid, rfl⟩ := List.mem_map.mp hp
        exact no_comma_of_wf (hs1 id hid)
      · intro p hp
        obtain ⟨id, hid, rfl⟩ := List.mem_map.mp hp
        exact no_comma_of_wf (hs2 id hid)
      · simp only [ne_eq, List.map_eq_nil_iff]
        intro he
        exact n1 (List.length_eq_zero.mp (by
          have hlen := congrArg List.length he
          simpa using hlen))
      · simp only [ne_eq, List.map_eq_nil_iff]
        intro he
        exact n2 (List.length_eq_zero.mp (by
          have hlen := congrArg List.length he
          simpa using hlen))
    have hsorts : l1.insertionSort idLe = l2.insertionSort idLe :=
      map_idPieceChars_inj hs1 hs2 hmaps
    have p1 := (l1.perm_insertionSort idLe).symm
    rw [hsorts] at p1
    exact (p1.trans (l2.perm_insertionSort idLe)).symm.symm
  · intro hp
    unfold jsIdsKey
    rw [insertionSort_idLe_eq_of_perm hp h1]

/-- Claim C3 counterexample: the claim, read with set semantics, fails.  The
existing batch has identities `[1, 1]` and the incoming batch `[1]`: the two
identity *sets* are equal, yet the store grows (the key compares the sorted
identity *lists*, `1,1` against `1`). -/
theorem storeWordleResult_set_claim_fails :
    (([some "1", some "1"] : List (Option String)).toFinset
      = ([some "1"] : List (Option String)).toFinset) ∧
    storeWordleResult "2024-01-01"
        ⟨some 1, [⟨some "1", none, 3⟩], none, none⟩
        [⟨"2024-01-01", [⟨some "1", 3⟩, ⟨some "1", 4⟩]⟩]
      = [⟨"2024-01-01", [⟨some "1", 3⟩, ⟨some "1", 4⟩]⟩,
         ⟨"2024-01-01", [⟨some "1", 3⟩]⟩] := by
  constructor
  · decide
  · decide

/-- Claim C3 (amended): for nonempty batches of well-formed identities, a new
batch is discarded exactly when some already-stored batch for the same date
string has the same *multiset* of participant identities (order-independent,
multiplicity included, `null` a distinct marker value); otherwise it is
appended. -/
theorem storeWordleResult_dedup_multiset
    (store : List StoredBatch) (d : String) (parsed : ParsedWordleSummary)
    (hstore : ∀ b ∈ store, b.results ≠ [] ∧ ∀ r ∈ b.results, WfId r.id)
    (hnew1 : parsed.results ≠ [])
    (hnew2 : ∀ r ∈ parsed.results, WfId r.id) :
    ((∃ b ∈ store, b.date = d ∧
        (b.results.map StoredResult.id).Perm (parsed.results.map WordleResult.id)) →
      storeWordleResult d parsed store = store) ∧
    ((¬ ∃ b ∈ store, b.date = d ∧
        (b.results.map StoredResult.id).Perm (parsed.results.map WordleResult.id)) →
      storeWordleResult d parsed store =
        store ++ [⟨d, parsed.results.map (fun r => ⟨r.id, r.score⟩)⟩]) := by
  have hids : ((parsed.results.map (fun r => StoredResult.mk r.id r.score)).map
      (fun r => r.id)) = parsed.results.map WordleResult.id := by
    rw [List.map_map]
    rfl
  have hcond : ((store.filter (fun b => b.date == d)).any
      (fun b => jsIdsKey (b.results.map (fun r => r.id))
        == jsIdsKey ((parsed.results.map (fun r => StoredResult.mk r.id r.score)).map
          (fun r => r.id)))) = true ↔
      (∃ b ∈ store, b.date = d ∧
        (b.results.map StoredResult.id).Perm (parsed.results.map WordleResult.id)) := by
    rw [List.any_eq_true]
    constructor
    · rintro ⟨b, hbmem, hkey⟩
      obtain ⟨hbs, hbd⟩ := List.mem_filter.mp hbmem
      refine ⟨b, hbs, by simpa using hbd, ?_⟩
      rw [hids] at hkey
      have hkey2 : jsIdsKey (b.results.map StoredResult.id)
          = jsIdsKey (parsed.results.map WordleResult.id) := by simpa using hkey
      refine (jsIdsKey_eq_iff ?_ ?_ ?_ ?_).mp hkey2
      · intro id hm
        obtain ⟨r, hr, rfl⟩ := List.mem_map.mp hm
        exact (hstore b hbs).2 r hr
      · intro id hm
        obtain ⟨r, hr, rfl⟩ := List.mem_map.mp hm
        exact hnew2 r hr
      · simp only [ne_eq, List.map_eq_nil_iff]
        exact (hstore b hbs).1
      · simp only [ne_eq, List.map_eq_nil_iff]
        exact hnew1
    · rintro ⟨b, hbs, hbd, hperm⟩
      refine ⟨b, List.mem_filter.mpr ⟨hbs, by simpa using hbd⟩, ?_⟩
      rw [hids]
      have hkey2 : jsIdsKey (b.results.map StoredResult.id)
          = jsIdsKey (parsed.results.map WordleResult.id) := by
        refine (jsIdsKey_eq_iff ?_ ?_ ?_ ?_).mpr hperm
        · intro id hm
          obtain ⟨r, hr, rfl⟩ := List.mem_map.mp hm
          exact (hstore b hbs).2 r hr
        · intro id hm
          obtain ⟨r, hr, rfl⟩ := List.mem_map.mp hm
          exact hnew2 r hr
        · simp only [ne_eq, List.map_eq_nil_iff]
          exact (hstore b hbs).1
        · simp only [ne_eq, List.map_eq_nil_iff]
          exact hnew1
      simpa using hkey2
  constructor
  · intro hdup
    unfold storeWordleResult
    rw [if_pos (hcond.mpr hdup)]
  · intro hnodup
    unfold storeWordleResult
    rw [if_neg (fun hc => hnodup (hcond.mp hc))]

/-- Closed instance of the dedup theorem: a second batch for the same date
with a different identity multiset (`[2]` against stored `[1]`) is appended,
giving two stored batches for one day. -/
theorem storeWordleResult_dedup_multiset_witness :
    storeWordleResult "2024-01-01" ⟨some 1, [⟨some "2", none, 5⟩], none, none⟩
        [⟨"2024-01-01", [⟨some "1", 3⟩]⟩]
      = [⟨"2024-01-01", [⟨some "1", 3⟩]⟩, ⟨"2024-01-01", [⟨some "2", 5⟩]⟩] :=
  (storeWordleResult_dedup_multiset [⟨"2024-01-01", [⟨some "1", 3⟩]⟩] "2024-01-01"
      ⟨some 1, [⟨some "2", none, 5⟩], none, none⟩
      (by decide) (by decide) (by decide)).2 (by decide)

theorem currentStreakBack_eq_takeWhile :
    ∀ (l : List UserGame) (succ : UserGame),
      currentStreakBack l succ.date
        = ((l.zip (succ :: l)).takeWhile backPairsQualify).length := by
  intro l
  induction l with
  | nil => intro succ; rfl
  | cons g rest ih =>
    intro succ
    rw [List.zip_cons_cons, List.takeWhile_cons]
    by_cases hc : (g.score != some (-1) && dayDiff g.date succ.date == some 1) = true
    · have hq : backPairsQualify (g, succ) = true := hc
      rw [currentStreakBack, if_pos hc, hq, if_pos rfl]
      rw [List.length_cons, ih g]
      omega
    · have hq : backPairsQualify (g, succ) = false := by
        rwa [Bool.not_eq_true] at hc
      rw [currentStreakBack, if_neg hc, hq, if_neg (by simp)]
      rfl

/-- Claim C4: on a chronologically sorted game history, the current streak is
zero whenever the last game is a failure or not dated today/yesterday; when
the last game is a solve dated today or yesterday it equals one plus the
number of consecutive immediately prior games that are each solved and
exactly one calendar day before their successor; and it is nonzero only
under that anchor condition. -/
theorem currentStreakCalc_characterization (games : List UserGame)
    (today yesterday : String) :
    (∀ last, games.getLast? = some last →
      (last.score = some (-1) ∨ (last.date ≠ today ∧ last.date ≠ yesterday)) →
      currentStreakCalc games today yesterday = 0) ∧
    (∀ last, games.getLast? = some last → last.score ≠ some (-1) →
      (last.date = today ∨ last.date = yesterday) →
      currentStreakCalc games today yesterday =
        1 + ((games.reverse.tail.zip games.reverse).takeWhile backPairsQualify).length) ∧
    (currentStreakCalc games today yesterday ≠ 0 →
      ∃ last, games.getLast? = some last ∧ last.score ≠ some (-1) ∧
        (last.date = today ∨ last.date = yesterday)) := by
  refine ⟨?_, ?_, ?_⟩
  · intro last hlast hbad
    simp only [currentStreakCalc, hlast]
    rw [if_neg]
    intro hcond
    rw [Bool.and_eq_true] at hcond
    rcases hbad with hfail | ⟨ht, hy⟩
    · rw [hfail] at hcond
      simp at hcond
    · rcases Bool.or_eq_true_iff.mp hcond.2 with h | h
      · exact ht (by simpa using h)
      · exact hy (by simpa using h)
  · intro last hlast hscore hdate
    have hne : games ≠ [] := by
      intro he
      rw [he] at hlast
      simp at hlast
    have hgl : games.getLast hne = last := by
      have hq := List.getLast?_eq_getLast games hne
      rw [hlast] at hq
      exact (Option.some.inj hq).symm
    have hrev : games.reverse = last :: games.dropLast.reverse := by
      conv_lhs => rw [← List.dropLast_append_getLast hne]
      rw [List.reverse_append, hgl]
      rfl
    simp only [currentStreakCalc, hlast]
    rw [if_pos]
    · rw [List.tail_reverse, hrev, currentStreakBack_eq_takeWhile games.dropLast.reverse last]
    · rw [Bool.and_eq_true]
      refine ⟨by simpa using hscore, ?_⟩
      rcases hdate with h | h
      · rw [Bool.or_eq_true_iff]
        exact Or.inl (by simpa using h)
      · rw [Bool.or_eq_true_iff]
        exact Or.inr (by simpa using h)
  · intro hnz
    cases hl : games.getLast? with
    | none => simp [currentStreakCalc, hl] at hnz
    | some last =>
      refine ⟨last, rfl, ?_⟩
      simp only [currentStreakCalc, hl] at hnz
      by_cases hcond : (last.score != some (-1)
          && (last.date == today || last.date == yesterday)) = true
      · rw [Bool.and_eq_true] at hcond
        refine ⟨by simpa using hcond.1, ?_⟩
        rcases Bool.or_eq_true_iff.mp hcond.2 with h | h
        · exact Or.inl (by simpa using h)
        · exact Or.inr (by simpa using h)
      · rw [if_neg hcond] at hnz
        exact absurd rfl hnz

/-- Closed instance of the current-streak characterization: two solves on
consecutive days ending yesterday give a current streak of 2. -/
theorem currentStreakCalc_characterization_witness :
    currentStreakCalc [⟨"2024-01-01", some 3⟩, ⟨"2024-01-02", some 4⟩]
      "2024-01-03" "2024-01-02" = 2 := by
  have h := (currentStreakCalc_characterization
    [⟨"2024-01-01", some 3⟩, ⟨"2024-01-02", some 4⟩] "2024-01-03" "2024-01-02").2.1
    ⟨"2024-01-02", some 4⟩ (by decide) (by decide) (Or.inr (by decide))
  rw [h]
  decide

theorem maxStreakGo_eq_foldr_max :
    ∀ (l : List UserGame) (prev : Option String) (run mx : Nat),
      maxStreakGo l prev run mx = max mx ((runningValues l prev run).foldr max 0) := by
  intro l
  induction l with
  | nil => intro prev run mx; simp [maxStreakGo, runningValues]
  | cons g rest ih =>
    intro prev run mx
    rw [maxStreakGo, runningValues, List.foldr_cons, ih]
    rw [← Nat.max_assoc]

/-- Claim C5: on a chronologically sorted game history, the max streak is the
maximum of the running-counter values of a single forward pass, where the
counter becomes 1 on a solve at the first game or on a solve after a gap
other than exactly one day, `run + 1` on a solve exactly one day after the
previous game, and 0 on a failure; in particular three solves on consecutive
days give max streak 3. -/
theorem maxStreakCalc_characterization :
    (∀ games : List UserGame,
      maxStreakCalc games = (runningValues games none 0).foldr max 0) ∧
    (∀ (g : UserGame) (run : Nat), g.score ≠ some (-1) → maxStreakStep none run g = 1) ∧
    (∀ (pd : String) (g : UserGame) (run : Nat), g.score ≠ some (-1) →
      dayDiff pd g.date = some 1 → maxStreakStep (some pd) run g = run + 1) ∧
    (∀ (pd : String) (g : UserGame) (run : Nat), g.score ≠ some (-1) →
      dayDiff pd g.date ≠ some 1 → maxStreakStep (some pd) run g = 1) ∧
    (∀ (pd : Option String) (g : UserGame) (run : Nat), g.score = some (-1) →
      maxStreakStep pd run g = 0) ∧
    (∀ (d1 d2 d3 : String) (s1 s2 s3 : Option Int),
      s1 ≠ some (-1) → s2 ≠ some (-1) → s3 ≠ some (-1) →
      dayDiff d1 d2 = some 1 → dayDiff d2 d3 = some 1 →
      maxStreakCalc [⟨d1, s1⟩, ⟨d2, s2⟩, ⟨d3, s3⟩] = 3) := by
  refine ⟨?_, ?_, ?_, ?_, ?_, ?_⟩
  · intro games
    rw [maxStreakCalc, maxStreakGo_eq_foldr_max]
    simp
  · intro g run hs
    simp [maxStreakStep, bne_iff_ne, hs]
  · intro pd g run hs hd
    simp [maxStreakStep, bne_iff_ne, hs, hd]
  · intro pd g run hs hd
    simp only [maxStreakStep]
    rw [if_pos (by simpa [bne_iff_ne] using hs), if_neg (by simpa using hd)]
  · intro pd g run hs
    simp [maxStreakStep, hs]
  · intro d1 d2 d3 s1 s2 s3 h1 h2 h3 hd12 hd23
    have b1 : (s1 != some (-1)) = true := by simpa [bne_iff_ne] using h1
    have b2 : (s2 != some (-1)) = true := by simpa [bne_iff_ne] using h2
    have b3 : (s3 != some (-1)) = true := by simpa [bne_iff_ne] using h3
    simp [maxStreakCalc, maxStreakGo, maxStreakStep, b1, b2, b3, hd12, hd23]

/-- Closed instance: three solves on the consecutive days 2024-01-01 to
2024-01-03 give max streak 3. -/
theorem maxStreakCalc_characterization_witness :
    maxStreakCalc [⟨"2024-01-01", some 3⟩, ⟨"2024-01-02", some 2⟩,
      ⟨"2024-01-03", some 5⟩] = 3 :=
  maxStreakCalc_characterization.2.2.2.2.2 "2024-01-01" "2024-01-02" "2024-01-03"
    (some 3) (some 2) (some 5) (by decide) (by decide) (by decide) (by decide) (by decide)

/-! ## Aggregation theorems -/
/-- Claim C7: aggregating an empty store returns the fully-empty-but-well-formed
result, not an error. -/
theorem aggregateWordleStats_empty (m : List (String × String)) (t y : String) :
    aggregateWordleStats [] m t y
      = Except.ok ⟨none, [], ⟨[], [], []⟩⟩ := rfl

/-- Claim C6 counterexample: a stored batch whose `results` field is missing
makes the aggregation throw (the `for…of` over `undefined`), so the claim
that it never fails on absent fields is false. -/
theorem aggregateWordleStats_throws_on_missing_results :
    aggregateWordleStats [⟨some "2024-01-01", none, none⟩] []
      "2024-01-02" "2024-01-01" = Except.error () := rfl

theorem decodeDocs_ok_of_wellformed :
    ∀ docs : List RawDoc, (∀ b ∈ docs, b.date.isSome ∧ b.results.isSome) →
      ∃ l, decodeDocs docs = Except.ok l := by
  intro docs
  induction docs with
  | nil => intro _; exact ⟨[], rfl⟩
  | cons doc rest ih =>
    intro h
    obtain ⟨hd, hr⟩ := h doc (List.mem_cons_self doc rest)
    obtain ⟨dd, hdd⟩ := Option.isSome_iff_exists.mp hd
    obtain ⟨rr, hrr⟩ := Option.isSome_iff_exists.mp hr
    obtain ⟨l, hl⟩ := ih (fun b hb => h b (List.mem_cons_of_mem doc hb))
    refine ⟨(dd, rr, doc.wordleNumber) :: l, ?_⟩
    rw [decodeDocs]
    rw [show decodeDoc doc = Except.ok (dd, rr, doc.wordleNumber) by
      unfold decodeDoc; rw [hdd, hrr]]
    rw [hl]

/-- Claim C6 (amended): the aggregation returns a well-formed result and never
throws whenever every stored batch carries a results array and a usable date
value; a batch missing either one makes it throw. -/
theorem aggregateWordleStats_ok_of_wellformed (docs : List RawDoc)
    (m : List (String × String)) (t y : String)
    (h : ∀ b ∈ docs, b.date.isSome ∧ b.results.isSome) :
    (aggregateWordleStats docs m t y).isOk = true := by
  cases docs with
  | nil => rfl
  | cons doc rest =>
    obtain ⟨l, hl⟩ := decodeDocs_ok_of_wellformed (doc :: rest) h
    simp only [aggregateWordleStats, List.isEmpty_cons, hl]
    rfl

/-- Closed instance: one well-formed batch aggregates without an error. -/
theorem aggregateWordleStats_ok_of_wellformed_witness :
    (aggregateWordleStats [⟨some "2024-01-02", some [⟨some "1", some 3⟩], none⟩] []
      "2024-01-03" "2024-01-02").isOk = true :=
  aggregateWordleStats_ok_of_wellformed
    [⟨some "2024-01-02", some [⟨some "1", some 3⟩], none⟩] [] "2024-01-03" "2024-01-02"
    (by decide)

/-! ## Association-list lemmas for the aggregation records -/
theorem find_map_update_self {β : Type} (m : List (String × β)) (k : String) (v : β) :
    (m.map (fun p => if p.1 == k then (k, v) else p)).find? (fun p => p.1 == k)
      = if m.any (fun p => p.1 == k) then some (k, v) else none := by
  induction m with
  | nil => rfl
  | cons p tl ih =>
    by_cases hp : (p.1 == k) = true
    · rw [List.map_cons, if_pos hp, List.find?_cons_of_pos _ (by simp),
        List.any_cons, hp]
      simp
    · rw [List.map_cons, if_neg hp, List.find?_cons_of_neg _ (by simpa using hp),
        List.any_cons]
      rw [Bool.not_eq_true] at hp
      rw [hp, ih, Bool.false_or]

theorem find_map_update_other {β : Type} (m : List (String × β)) (k : String) (v : β)
    (k' : String) (hne : k' ≠ k) :
    (m.map (fun p => if p.1 == k then (k, v) else p)).find? (fun p => p.1 == k')
      = m.find? (fun p => p.1 == k') := by
  induction m with
  | nil => rfl
  | cons p tl ih =>
    have hne2 : k ≠ k' := fun h => hne h.symm
    by_cases hp : (p.1 == k) = true
    · have hpk : p.1 = k := by simpa using hp
      rw [List.map_cons, if_pos hp,
        List.find?_cons_of_neg _ (by simp [hne2]),
        List.find?_cons_of_neg _ (by simp [hpk, hne2]), ih]
    · rw [List.map_cons, if_neg hp]
      by_cases hk' : (p.1 == k') = true
      · rw [List.find?_cons_of_pos _ (by simpa using hk'),
          List.find?_cons_of_pos _ (by simpa using hk')]
      · rw [List.find?_cons_of_neg _ (by simpa using hk'),
          List.find?_cons_of_neg _ (by simpa using hk'), ih]

theorem jsObjGet_jsObjSet {β : Type} (m : List (String × β)) (k k' : String) (v : β) :
    jsObjGet (jsObjSet m k v) k' = if k' = k then some v else jsObjGet m k' := by
  unfold jsObjSet jsObjGet
  by_cases hany : m.any (fun p => p.1 == k) = true
  · rw [if_pos hany]
    by_cases hk : k' = k
    · subst hk
      rw [find_map_update_self, if_pos hany, if_pos rfl]
      rfl
    · rw [find_map_update_other m k v k' hk, if_neg hk]
  · rw [if_neg hany]
    rw [List.find?_append]
    by_cases hk : k' = k
    · subst hk
      have hfind : m.find? (fun p => p.1 == k') = none := by
        rw [List.find?_eq_none]
        intro x hx hbeq
        exact hany (List.any_eq_true.mpr ⟨x, hx, hbeq⟩)
      rw [hfind, if_pos rfl]
      simp [List.find?_cons_of_pos]
    · have hk2 : k ≠ k' := fun h => hk h.symm
      cases hfm : m.find? (fun p => p.1 == k') with
      | some p => simp [hfm, hk]
      | none => simp [hfm, hk, List.find?_cons_of_neg, hk2]

theorem jsObjGet_pushGame (h : List (String × List UserGame)) (date : String)
    (r : DocResult) (uid : String) :
    jsObjGet (pushGame h date r) uid =
      if r.id = some uid then some ((jsObjGet h uid).getD [] ++ [UserGame.mk date r.score])
      else jsObjGet h uid := by
  cases hrid : r.id with
  | none => simp [pushGame, hrid]
  | some i =>
    have hpush : pushGame h date r
        = jsObjSet h i ((jsObjGet h i).getD [] ++ [UserGame.mk date r.score]) := by
      simp [pushGame, hrid]
    rw [hpush, jsObjGet_jsObjSet]
    by_cases hui : uid = i
    · subst hui
      rw [if_pos rfl, if_pos rfl]
    · rw [if_neg hui, if_neg (fun he => hui (Option.some.inj he).symm)]

theorem jsObjGet_addDocToHistory :
    ∀ (results : List DocResult) (h : List (String × List UserGame))
      (date : String) (uid : String),
      jsObjGet (addDocToHistory h date results) uid =
        if jsObjGet h uid = none ∧ gamesOf date results uid = [] then none
        else some ((jsObjGet h uid).getD [] ++ gamesOf date results uid) := by
  intro results
  induction results with
  | nil =>
    intro h date uid
    cases hg : jsObjGet h uid with
    | none => simp [addDocToHistory, gamesOf, hg]
    | some gs => simp [addDocToHistory, gamesOf, hg]
  | cons r rs ih =>
    intro h date uid
    have hstep : addDocToHistory h date (r :: rs)
        = addDocToHistory (pushGame h date r) date rs := rfl
    rw [hstep, ih]
    by_cases hr : r.id = some uid
    · have hgames : gamesOf date (r :: rs) uid
          = UserGame.mk date r.score :: gamesOf date rs uid := by
        unfold gamesOf
        rw [List.filter_cons, if_pos (by simpa using hr)]
        rfl
      have hpush : jsObjGet (pushGame h date r) uid
          = some ((jsObjGet h uid).getD [] ++ [UserGame.mk date r.score]) := by
        rw [jsObjGet_pushGame, if_pos hr]
      rw [hpush, hgames]
      have hne1 : ¬ ((some ((jsObjGet h uid).getD [] ++ [UserGame.mk date r.score])
          : Option (List UserGame)) = none ∧ gamesOf date rs uid = []) := by
        intro hcon
        exact Option.some_ne_none _ hcon.1
      rw [if_neg hne1]
      have hne2 : ¬ (jsObjGet h uid = none ∧
          (UserGame.mk date r.score :: gamesOf date rs uid : List UserGame) = []) := by
        intro hcon
        exact List.cons_ne_nil _ _ hcon.2
      rw [if_neg hne2]
      simp
    · have hgames : gamesOf date (r :: rs) uid = gamesOf date rs uid := by
        unfold gamesOf
        rw [List.filter_cons, if_neg (by simpa using hr)]
      have hpush : jsObjGet (pushGame h date r) uid = jsObjGet h uid := by
        rw [jsObjGet_pushGame, if_neg hr]
      rw [hpush, hgames]

theorem jsObjGet_map_entries {α β : Type} (m : List (String × α))
    (f : String → α → β) (uid : String) :
    jsObjGet (m.map (fun p => (p.1, f p.1 p.2))) uid = (jsObjGet m uid).map (f uid) := by
  induction m with
  | nil => rfl
  | cons p tl ih =>
    unfold jsObjGet
    rw [List.map_cons, List.find?, List.find?]
    cases hk : (p.1 == uid) with
    | true =>
      have hpk : p.1 = uid := by simpa using hk
      subst hpk
      simp
    | false =>
      unfold jsObjGet at ih
      rw [ih]

/-- Claim C10: with two stored batches sharing one date key, the aggregation's
daily summary is built from the results of the batch processed last (the
per-date record overwrite), while the per-user statistics are computed from
the concatenation of both batches' games for each identity. -/
theorem aggregateWordleStats_same_dateKey (d : String) (rs1 rs2 : List DocResult)
    (w1 w2 : Option Int) (m : List (String × String)) (t y : String) :
    aggregateWordleStats [⟨some d, some rs1, w1⟩, ⟨some d, some rs2, w2⟩] m t y
      = Except.ok (buildAggregated [(d, rs1, w1), (d, rs2, w2)] m t y) ∧
    (buildAggregated [(d, rs1, w1), (d, rs2, w2)] m t y).dailySummary
      = some (mkDailySummary d rs2 w2) ∧
    (∀ uid : String,
      jsObjGet (buildAggregated [(d, rs1, w1), (d, rs2, w2)] m t y).userStats uid
        = if gamesOf d rs1 uid ++ gamesOf d rs2 uid = [] then none
          else some (mkUserStats uid (gamesOf d rs1 uid ++ gamesOf d rs2 uid) m t y)) := by
  have hall : List.foldl (fun mm (e : String × List DocResult × Option Int) =>
      jsObjSet mm e.1 (e.2.1, e.2.2)) [] [(d, rs1, w1), (d, rs2, w2)]
      = [(d, (rs2, w2))] := by
    show jsObjSet (jsObjSet [] d (rs1, w1)) d (rs2, w2) = [(d, (rs2, w2))]
    rw [show jsObjSet ([] : List (String × List DocResult × Option Int)) d (rs1, w1)
      = [(d, (rs1, w1))] from rfl]
    simp [jsObjSet]
  refine ⟨rfl, ?_, ?_⟩
  · simp only [buildAggregated, hall]
    simp [jsObjGet]
  · intro uid
    simp only [buildAggregated]
    have hhist : List.foldl (fun h (e : String × List DocResult × Option Int) =>
        addDocToHistory h e.1 e.2.1) [] [(d, rs1, w1), (d, rs2, w2)]
        = addDocToHistory (addDocToHistory [] d rs1) d rs2 := rfl
    rw [hhist]
    rw [jsObjGet_map_entries _ (fun uid2 gs => mkUserStats uid2 gs m t y) uid]
    have hbase : jsObjGet ([] : List (String × List UserGame)) uid = none := rfl
    have hinner : jsObjGet (addDocToHistory [] d rs1) uid
        = if gamesOf d rs1 uid = [] then none else some (gamesOf d rs1 uid) := by
      rw [jsObjGet_addDocToHistory, hbase]
      by_cases hg1 : gamesOf d rs1 uid = []
      · rw [if_pos ⟨rfl, hg1⟩, if_pos hg1]
      · rw [if_neg (fun hcon => hg1 hcon.2), if_neg hg1]
        simp
    have houter : jsObjGet (addDocToHistory (addDocToHistory [] d rs1) d rs2) uid
        = if gamesOf d rs1 uid ++ gamesOf d rs2 uid = [] then none
          else some (gamesOf d rs1 uid ++ gamesOf d rs2 uid) := by
      rw [jsObjGet_addDocToHistory, hinner]
      by_cases hg1 : gamesOf d rs1 uid = []
      · rw [if_pos hg1]
        by_cases hg2 : gamesOf d rs2 uid = []
        · rw [if_pos ⟨rfl, hg2⟩, if_pos (by rw [hg1, hg2]; rfl)]
        · rw [if_neg (fun hcon => hg2 hcon.2),
            if_neg (fun hcon => hg2 (by rw [hg1] at hcon; simpa using hcon))]
          rw [hg1]
          simp
      · rw [if_neg hg1]
        rw [if_neg (fun hcon => Option.some_ne_none _ hcon.1)]
        rw [if_neg (fun hcon => hg1 (List.append_eq_nil.mp hcon).1)]
        simp
    rw [houter]
    by_cases h12 : gamesOf d rs1 uid ++ gamesOf d rs2 uid = []
    · rw [if_pos h12, if_pos h12]
      rfl
    · rw [if_neg h12, if_neg h12]
      rfl

/-! ## Medal-assignment lemmas -/
theorem strContains_iff (l : List String) (x : String) :
    l.contains x = true ↔ x ∈ l := by
  simp [List.contains_eq_any_beq, List.any_eq_true, eq_comm]

theorem setAdd_mem (p : List String) (i x : String) :
    x ∈ setAdd p i ↔ x ∈ p ∨ x = i := by
  unfold setAdd
  by_cases hc : p.contains i = true
  · rw [if_pos hc]
    have hi : i ∈ p := (strContains_iff p i).mp hc
    constructor
    · exact Or.inl
    · rintro (h | rfl)
      · exact h
      · exact hi
  · rw [if_neg hc]
    simp

theorem setAdd_nodup (p : List String) (i : String) (h : p.Nodup) :
    (setAdd p i).Nodup := by
  unfold setAdd
  by_cases hc : p.contains i = true
  · rw [if_pos hc]
    exact h
  · rw [if_neg hc]
    have hni : i ∉ p := fun hm => hc ((strContains_iff p i).mpr hm)
    simp [List.nodup_append, h, hni]

theorem foldl_setAdd_mem :
    ∀ (l : List UserStats) (placed : List String) (x : String),
      x ∈ l.foldl (fun acc s => setAdd acc s.id) placed ↔
        x ∈ placed ∨ x ∈ l.map UserStats.id := by
  intro l
  induction l with
  | nil => intro placed x; simp
  | cons s l2 ih =>
    intro placed x
    rw [List.foldl_cons, ih, setAdd_mem]
    simp [or_assoc]

theorem foldl_setAdd_nodup :
    ∀ (l : List UserStats) (placed : List String), placed.Nodup →
      (l.foldl (fun acc s => setAdd acc s.id) placed).Nodup := by
  intro l
  induction l with
  | nil => intro placed h; exact h
  | cons s l2 ih =>
    intro placed h
    rw [List.foldl_cons]
    exact ih _ (setAdd_nodup placed s.id h)

theorem dirGood_refl (dir : SortDirection) (x : ℚ) : dirGood dir x x := by
  cases dir <;> exact le_refl x

theorem dirGood_trans {dir : SortDirection} {x y z : ℚ}
    (h1 : dirGood dir x y) (h2 : dirGood dir y z) : dirGood dir x z := by
  cases dir
  · exact le_trans h2 h1
  · exact le_trans h1 h2

theorem dirGood_antisymm {dir : SortDirection} {x y : ℚ}
    (h1 : dirGood dir x y) (h2 : dirGood dir y x) : x = y := by
  cases dir
  · exact le_antisymm h2 h1
  · exact le_antisymm h1 h2

theorem dirGood_bestOp_left (dir : SortDirection) (a x : ℚ) :
    dirGood dir a (bestOp dir a x) := by
  cases dir
  · exact min_le_left a x
  · exact le_max_left a x

theorem dirGood_bestOp_right (dir : SortDirection) (a x : ℚ) :
    dirGood dir x (bestOp dir a x) := by
  cases dir
  · exact min_le_right a x
  · exact le_max_right a x

theorem bestOp_choice (dir : SortDirection) (a x : ℚ) :
    bestOp dir a x = a ∨ bestOp dir a x = x := by
  cases dir
  · exact min_choice a x
  · exact max_choice a x

theorem bestValue_mem (dir : SortDirection) :
    ∀ (vs : List ℚ) (v : ℚ), bestValue dir v vs = v ∨ bestValue dir v vs ∈ vs := by
  intro vs
  induction vs with
  | nil => intro v; exact Or.inl rfl
  | cons x xs ih =>
    intro v
    rw [bestValue, List.foldl_cons]
    rcases ih (bestOp dir v x) with h | h
    · rcases bestOp_choice dir v x with h2 | h2
      · exact Or.inl (by rw [bestValue] at h; rw [h, h2])
      · refine Or.inr ?_
        rw [bestValue] at h
        rw [h, h2]
        exact List.mem_cons_self x xs
    · exact Or.inr (List.mem_cons_of_mem x h)

theorem bestValue_good_start (dir : SortDirection) :
    ∀ (vs : List ℚ) (v : ℚ), dirGood dir v (bestValue dir v vs) := by
  intro vs
  induction vs with
  | nil => intro v; exact dirGood_refl dir v
  | cons x xs ih =>
    intro v
    rw [bestValue, List.foldl_cons]
    exact dirGood_trans (dirGood_bestOp_left dir v x) (ih (bestOp dir v x))

theorem bestValue_good_mem (dir : SortDirection) :
    ∀ (vs : List ℚ) (v u : ℚ), u ∈ vs → dirGood dir u (bestValue dir v vs) := by
  intro vs
  induction vs with
  | nil => intro v u h; exact absurd h (List.not_mem_nil u)
  | cons x xs ih =>
    intro v u hu
    rw [bestValue, List.foldl_cons]
    rcases List.mem_cons.mp hu with rfl | h
    · exact dirGood_trans (dirGood_bestOp_right dir v u) (bestValue_good_start dir xs _)
    · exact ih (bestOp dir v x) u h

theorem bestValue_eq_of (dir : SortDirection) (vs : List ℚ) (v u : ℚ)
    (hmem : u = v ∨ u ∈ vs)
    (hgood : ∀ x, (x = v ∨ x ∈ vs) → dirGood dir x u) :
    u = bestValue dir v vs := by
  apply dirGood_antisymm
  · rcases hmem with rfl | h
    · exact bestValue_good_start dir vs u
    · exact bestValue_good_mem dir vs v u h
  · exact hgood (bestValue dir v vs) (bestValue_mem dir vs v)

theorem insertionSort_filter_eq (dir : SortDirection) (f : UserStats → Option ℚ)
    (l : List UserStats) (p : UserStats → Bool)
    (hp : ∀ a b, p a = true → p b = true → lbValLe dir f a b) :
    (l.insertionSort (lbValLe dir f)).filter p = l.filter p := by
  have hpair : (l.filter p).Pairwise (lbValLe dir f) := by
    apply List.pairwise_of_forall_mem_list
    intro a ha b hb
    exact hp a b (List.of_mem_filter ha) (List.of_mem_filter hb)
  have hsub : List.Sublist (l.filter p) (l.insertionSort (lbValLe dir f)) :=
    List.sublist_insertionSort hpair (List.filter_sublist l)
  have hsub2 : List.Sublist (l.filter p) ((l.insertionSort (lbValLe dir f)).filter p) := by
    have hs3 := hsub.filter p
    rwa [List.filter_eq_self.mpr (fun a ha => List.of_mem_filter ha)] at hs3
  have hperm : ((l.insertionSort (lbValLe dir f)).filter p).Perm (l.filter p) :=
    (l.perm_insertionSort (lbValLe dir f)).filter p
  exact (hsub2.eq_of_length hperm.symm.length_eq).symm

theorem specMedalGroups_nil (f : UserStats → Option ℚ) (dir : SortDirection)
    (fuel : Nat) : specMedalGroups f dir [] fuel = [] := by
  cases fuel <;> rfl

theorem specMedalGroups_mem_subset (f : UserStats → Option ℚ) (dir : SortDirection) :
    ∀ (fuel : Nat) (pool : List UserStats) (g : ℚ × List UserStats),
      g ∈ specMedalGroups f dir pool fuel → ∀ s ∈ g.2, s ∈ pool := by
  intro fuel
  induction fuel with
  | zero => intro pool g hg; simp [specMedalGroups] at hg
  | succ n ih =>
    intro pool g hg s hs
    cases pool with
    | nil => simp [specMedalGroups] at hg
    | cons p ps =>
      rw [specMedalGroups] at hg
      rcases List.mem_cons.mp hg with rfl | htail
      · dsimp only at hs
        exact List.mem_of_mem_filter hs
      · exact List.mem_of_mem_filter (ih _ g htail s hs)

theorem specMedalGroups_disjoint (f : UserStats → Option ℚ) (dir : SortDirection) :
    ∀ (fuel : Nat) (pool : List UserStats),
      (specMedalGroups f dir pool fuel).Pairwise
        (fun g1 g2 => ∀ s ∈ g1.2, s ∉ g2.2) := by
  intro fuel
  induction fuel with
  | zero => intro pool; simp [specMedalGroups]
  | succ n ih =>
    intro pool
    cases pool with
    | nil => simp [specMedalGroups]
    | cons p ps =>
      rw [specMedalGroups]
      refine List.Pairwise.cons ?_ (ih _)
      intro g2 hg2 s hs hs2
      dsimp only at hs
      have h1 := List.of_mem_filter hs
      have h2 : s ∈ (p :: ps).filter (fun s => !decide (f s = some (bestValue dir
          ((f p).getD 0) (ps.map (fun s => (f s).getD 0))))) :=
        specMedalGroups_mem_subset f dir n _ g2 hg2 s hs2
      have h3 := List.of_mem_filter h2
      simp only [decide_eq_true_eq] at h1
      simp only [Bool.not_eq_true', decide_eq_false_iff_not] at h3
      exact h3 h1

theorem lbGroupsGo_eq_spec (f : UserStats → Option ℚ) (dir : SortDirection) :
    ∀ (fuel : Nat) (relevant : List UserStats) (placed : List String),
      (∀ s ∈ relevant, (f s).isSome = true) →
      (relevant.map UserStats.id).Nodup →
      placed.Nodup →
      (∀ x ∈ placed, x ∈ relevant.map UserStats.id) →
      lbGroupsGo f dir relevant placed fuel
        = specMedalGroups f dir (relevant.filter (fun s => !placed.contains s.id)) fuel := by
  intro fuel
  induction fuel with
  | zero => intro relevant placed _ _ _ _; rfl
  | succ n ih =>
    intro relevant placed hsome hnd hpnd hpsub
    by_cases hpoolnil : relevant.filter (fun s => !placed.contains s.id) = []
    · simp only [lbGroupsGo]
      rw [hpoolnil, specMedalGroups_nil]
      rfl
    · obtain ⟨p, ps, hpool⟩ := List.exists_cons_of_ne_nil hpoolnil
      obtain ⟨top, rest, hsort⟩ :
          ∃ top rest, List.insertionSort (lbValLe dir f) (p :: ps) = top :: rest := by
        apply List.exists_cons_of_ne_nil
        intro he
        have hlen := congrArg List.length he
        rw [List.length_insertionSort] at hlen
        simp at hlen
      have hpoolsub : ∀ s ∈ (p :: ps), s ∈ relevant := by
        intro s hs
        rw [← hpool] at hs
        exact List.mem_of_mem_filter hs
      have hpoolsome : ∀ s ∈ (p :: ps), (f s).isSome = true :=
        fun s hs => hsome s (hpoolsub s hs)
      have htopmem : top ∈ (p :: ps) := by
        have hm : top ∈ List.insertionSort (lbValLe dir f) (p :: ps) := by
          rw [hsort]
          exact List.mem_cons_self _ _
        exact (List.mem_insertionSort (lbValLe dir f)).mp hm
      obtain ⟨tvv, htv⟩ := Option.isSome_iff_exists.mp (hpoolsome top htopmem)
      have hgoodall : ∀ s ∈ (p :: ps), dirGood dir ((f s).getD 0) ((f top).getD 0) := by
        intro s hs
        have hsmem : s ∈ List.insertionSort (lbValLe dir f) (p :: ps) :=
          (List.mem_insertionSort (lbValLe dir f)).mpr hs
        rw [hsort] at hsmem
        rcases List.mem_cons.mp hsmem with rfl | hrest
        · exact dirGood_refl dir _
        · have hsorted := List.sorted_insertionSort (lbValLe dir f) (p :: ps)
          rw [hsort] at hsorted
          have hrel := List.rel_of_sorted_cons hsorted s hrest
          cases dir
          · exact hrel
          · exact hrel
      have hbest : (f top).getD 0
          = bestValue dir ((f p).getD 0) (ps.map (fun s => (f s).getD 0)) := by
        apply bestValue_eq_of
        · rcases List.mem_cons.mp htopmem with htp | h
          · exact Or.inl (by rw [htp])
          · exact Or.inr (List.mem_map_of_mem _ h)
        · intro x hx
          rcases hx with rfl | hx
          · exact hgoodall p (List.mem_cons_self p ps)
          · obtain ⟨s, hs, rfl⟩ := List.mem_map.mp hx
            exact hgoodall s (List.mem_cons_of_mem p hs)
      have htied : (List.insertionSort (lbValLe dir f) (p :: ps)).filter
            (fun s => decide (f s = some ((f top).getD 0)))
          = (p :: ps).filter (fun s => decide (f s = some ((f top).getD 0))) := by
        apply insertionSort_filter_eq
        intro a b ha hb
        have ha2 := of_decide_eq_true ha
        have hb2 := of_decide_eq_true hb
        cases dir
        · exact le_of_eq (by rw [ha2, hb2])
        · exact le_of_eq (by rw [ha2, hb2])
      rw [hsort] at htied
      simp only [lbGroupsGo, hpool, List.isEmpty_cons, Bool.false_eq_true, if_false, hsort]
      rw [htied]
      have htopin : top ∈ (p :: ps).filter
          (fun s => decide (f s = some ((f top).getD 0))) := by
        refine List.mem_filter.mpr ⟨htopmem, ?_⟩
        rw [htv]
        simp
      have htiedne : ((p :: ps).filter
          (fun s => decide (f s = some ((f top).getD 0)))).isEmpty = false := by
        rw [List.isEmpty_eq_false]
        exact List.ne_nil_of_mem htopin
      simp only [htiedne, Bool.false_eq_true, if_false]
      simp only [specMedalGroups]
      rw [← hbest]
      congr 1
      have hP2nodup : ((( p :: ps).filter (fun s => decide (f s = some ((f top).getD 0)))).foldl
          (fun acc s => setAdd acc s.id) placed).Nodup :=
        foldl_setAdd_nodup _ placed hpnd
      have hP2sub : ∀ x ∈ ((( p :: ps).filter
            (fun s => decide (f s = some ((f top).getD 0)))).foldl
            (fun acc s => setAdd acc s.id) placed),
          x ∈ relevant.map UserStats.id := by
        intro x hx
        rcases (foldl_setAdd_mem _ placed x).mp hx with h | h
        · exact hpsub x h
        · obtain ⟨s, hs, rfl⟩ := List.mem_map.mp h
          exact List.mem_map_of_mem _ (hpoolsub s (List.mem_of_mem_filter hs))
      have hfilter_key : ∀ s ∈ relevant,
          (!((( p :: ps).filter (fun s => decide (f s = some ((f top).getD 0)))).foldl
            (fun acc s => setAdd acc s.id) placed).contains s.id)
          = (!decide (f s = some ((f top).getD 0)) && !placed.contains s.id) := by
        intro s hsrel
        by_cases hcp : placed.contains s.id = true
        · have hcter : ((( p :: ps).filter
              (fun s => decide (f s = some ((f top).getD 0)))).foldl
              (fun acc s => setAdd acc s.id) placed).contains s.id = true :=
            (strContains_iff _ _).mpr
              ((foldl_setAdd_mem _ _ _).mpr (Or.inl ((strContains_iff _ _).mp hcp)))
          rw [hcter, hcp]
          simp
        · rw [Bool.not_eq_true] at hcp
          have hsmem_pool : s ∈ (p :: ps) := by
            rw [← hpool]
            refine List.mem_filter.mpr ⟨hsrel, ?_⟩
            rw [hcp]
            rfl
          by_cases hdec : f s = some ((f top).getD 0)
          · have hsT : s ∈ (p :: ps).filter
                (fun s => decide (f s = some ((f top).getD 0))) :=
              List.mem_filter.mpr ⟨hsmem_pool, by simp [hdec]⟩
            have hc2 : ((( p :: ps).filter
                (fun s => decide (f s = some ((f top).getD 0)))).foldl
                (fun acc s => setAdd acc s.id) placed).contains s.id = true :=
              (strContains_iff _ _).mpr
                ((foldl_setAdd_mem _ _ _).mpr (Or.inr (List.mem_map_of_mem _ hsT)))
            rw [hc2, hcp]
            simp [hdec]
          · have hnotT : s.id ∉ ((p :: ps).filter
                (fun s => decide (f s = some ((f top).getD 0)))).map UserStats.id := by
              intro hmem
              obtain ⟨t, htT, hts⟩ := List.mem_map.mp hmem
              have htrel : t ∈ relevant := hpoolsub t (List.mem_of_mem_filter htT)
              have hts2 : t = s := List.inj_on_of_nodup_map hnd htrel hsrel hts
              have hft0 := List.of_mem_filter htT
              have hft : f t = some ((f top).getD 0) := of_decide_eq_true hft0
              rw [hts2] at hft
              exact hdec hft
            have hnm : s.id ∉ ((( p :: ps).filter
                (fun s => decide (f s = some ((f top).getD 0)))).foldl
                (fun acc s => setAdd acc s.id) placed) := by
              intro hmem
              rcases (foldl_setAdd_mem _ _ _).mp hmem with h | h
              · have hc3 := (strContains_iff placed s.id).mpr h
                rw [hcp] at hc3
                exact Bool.false_ne_true hc3
              · exact hnotT h
            have hc4 : ((( p :: ps).filter
                (fun s => decide (f s = some ((f top).getD 0)))).foldl
                (fun acc s => setAdd acc s.id) placed).contains s.id = false := by
              cases hcb : ((( p :: ps).filter
                  (fun s => decide (f s = some ((f top).getD 0)))).foldl
                  (fun acc s => setAdd acc s.id) placed).contains s.id with
              | false => rfl
              | true => exact absurd ((strContains_iff _ _).mp hcb) hnm
            rw [hc4, hcp]
            simp [hdec]
      have hfilter_eq : relevant.filter (fun s => !((( p :: ps).filter
            (fun s => decide (f s = some ((f top).getD 0)))).foldl
            (fun acc s => setAdd acc s.id) placed).contains s.id)
          = (p :: ps).filter (fun s => !decide (f s = some ((f top).getD 0))) := by
        rw [List.filter_congr hfilter_key, ← List.filter_filter, hpool]
      by_cases hbreak : relevant.length ≤ ((( p :: ps).filter
          (fun s => decide (f s = some ((f top).getD 0)))).foldl
          (fun acc s => setAdd acc s.id) placed).length
      · rw [if_pos hbreak]
        have hpool2 : (p :: ps).filter (fun s => !decide (f s = some ((f top).getD 0)))
            = [] := by
          rw [← hfilter_eq, List.eq_nil_iff_forall_not_mem]
          intro s hs
          obtain ⟨hsrel, hsnc⟩ := List.mem_filter.mp hs
          have hperm := (List.subperm_of_subset hP2nodup hP2sub).perm_of_length_le
            (by simpa [List.length_map] using hbreak)
          have hsid : s.id ∈ ((( p :: ps).filter
              (fun s => decide (f s = some ((f top).getD 0)))).foldl
              (fun acc s => setAdd acc s.id) placed) :=
            hperm.mem_iff.mpr (List.mem_map_of_mem _ hsrel)
          have hc5 := (strContains_iff _ _).mpr hsid
          rw [hc5] at hsnc
          simp at hsnc
        rw [hpool2, specMedalGroups_nil]
      · rw [if_neg hbreak]
        rw [ih relevant _ hsome hnd hP2nodup hP2sub]
        rw [hfilter_eq]

/-- C9: the medal loop of `formatLeaderboardCategory` implements tie-aware
group-rank assignment — it refines the specification recursion that, per
tier, groups every not-yet-placed user tied on the best remaining value
(maximum for descending, minimum for ascending categories), for at most
three tiers, stopping early when everyone is placed; consequently tied users
share one medal and no user appears under two medals. -/
theorem formatLeaderboardGroups_tie_aware (stats : List UserStats)
    (f : UserStats → Option ℚ) (dir : SortDirection)
    (hnd : (stats.map UserStats.id).Nodup) :
    formatLeaderboardGroups stats f dir
      = specMedalGroups f dir (stats.filter (fun s => (f s).isSome)) 3 ∧
    (formatLeaderboardGroups stats f dir).Pairwise
      (fun g1 g2 => ∀ s ∈ g1.2, s ∉ g2.2) := by
  have h1 : formatLeaderboardGroups stats f dir
      = specMedalGroups f dir (stats.filter (fun s => (f s).isSome)) 3 := by
    unfold formatLeaderboardGroups
    by_cases hrel : (stats.filter (fun s => (f s).isSome)).isEmpty = true
    · rw [if_pos hrel]
      rw [List.isEmpty_iff] at hrel
      rw [hrel, specMedalGroups_nil]
    · rw [if_neg hrel]
      have hnd2 : ((stats.filter (fun s => (f s).isSome)).map UserStats.id).Nodup :=
        List.Nodup.sublist ((List.filter_sublist stats).map UserStats.id) hnd
      have hmain := lbGroupsGo_eq_spec f dir 3 (stats.filter (fun s => (f s).isSome)) []
        (by intro s hs
            have h2 := List.of_mem_filter hs
            exact h2) hnd2 List.nodup_nil
        (by intro x hx; simp at hx)
      rw [hmain]
      congr 1
      exact List.filter_eq_self.mpr (fun a _ => rfl)
  refine ⟨h1, ?_⟩
  rw [h1]
  exact specMedalGroups_disjoint f dir 3 _

/-- Closed instance of the medal assignment: three users with values 5, 3, 5
under the descending direction give gold shared by the two users tied on 5
and silver to the user on 3. -/
theorem formatLeaderboardGroups_tie_aware_witness :
    formatLeaderboardGroups
      [⟨"a", "a", 1, 1, 5, none, 0, 0, [], []⟩,
       ⟨"b", "b", 1, 1, 3, none, 0, 0, [], []⟩,
       ⟨"c", "c", 1, 1, 5, none, 0, 0, [], []⟩]
      (fun s => some s.winRate) SortDirection.desc
      = [(5, [⟨"a", "a", 1, 1, 5, none, 0, 0, [], []⟩,
              ⟨"c", "c", 1, 1, 5, none, 0, 0, [], []⟩]),
         (3, [⟨"b", "b", 1, 1, 3, none, 0, 0, [], []⟩])] := by
  have h := (formatLeaderboardGroups_tie_aware
    [⟨"a", "a", 1, 1, 5, none, 0, 0, [], []⟩,
     ⟨"b", "b", 1, 1, 3, none, 0, 0, [], []⟩,
     ⟨"c", "c", 1, 1, 5, none, 0, 0, [], []⟩]
    (fun s => some s.winRate) SortDirection.desc (by decide)).1
  rw [h]
  decide

end Wordle
